import Mathlib

/-!
# Verification of the `command` command-line parsing engine

A shallow embedding of the TypeScript command-line parsing library
(`src/parser.ts`, `src/flag.ts`, `src/flags.ts`, `src/command.ts`,
`src/strings.ts`) together with theorems checking the natural-language
specification against the code.

Modelling conventions:
* JS strings are modelled as `List Char` (`Str`).
* JS numbers produced by `parseInt` are modelled as `Option Int`
  (`none` models `NaN`); `Number.isSafeInteger` becomes a bound
  on the absolute value (the rejection decision agrees with the
  float semantics because `2^53` is exactly representable and
  rounding is monotone).
* Thrown exceptions become `Except` errors; the structured error
  constructors carry the data the thrown message strings are built from.
* Mutation of flag / command objects becomes explicit state passing;
  the in-place mutated command tree is reconstructed at the end of a
  parse (`PState.finalRoot`), mirroring the heap the TS code mutates.
* The user-supplied `run` callbacks are arbitrary foreign functions;
  executing one is modelled by recording the exact call it receives
  (`Invocation`: positional args, userdata, command reference), with
  `none` for a command that has no callback (`undefined` result slot).
-/

namespace CmdLine

abbrev Str := List Char

def lit (s : String) : Str := s.data

/-- `parseBool` from `strings.ts`: the literals `false`, `FALSE`, `False`, `0`
map to `false`, everything else to `true`. -/
def parseBoolJS (v : Str) : Bool :=
  if v = lit "false" ∨ v = lit "FALSE" ∨ v = lit "False" ∨ v = lit "0" then false else true

/-- Whitespace skipped by JS `parseInt` (common subset). -/
def isSpaceJS (c : Char) : Bool :=
  c = ' ' ∨ c = '\t' ∨ c = '\n' ∨ c = '\r'

/-- Digit value of `c` in the given base, if valid. -/
def digitValAt (base : Nat) (c : Char) : Option Nat :=
  let v : Nat :=
    if '0' ≤ c ∧ c ≤ '9' then c.toNat - '0'.toNat
    else if 'a' ≤ c ∧ c ≤ 'z' then c.toNat - 'a'.toNat + 10
    else if 'A' ≤ c ∧ c ≤ 'Z' then c.toNat - 'A'.toNat + 10
    else 99
  if v < base then some v else none

/-- JS `parseInt`: skip whitespace, optional sign, optional `0x` prefix,
then the longest digit prefix; `none` models `NaN`. -/
def parseIntJS (s : Str) : Option Int :=
  let s1 := s.dropWhile isSpaceJS
  let sign : Int := match s1 with | '-' :: _ => -1 | _ => 1
  let s2 : Str := match s1 with | '-' :: r => r | '+' :: r => r | _ => s1
  let pr : Nat × Str :=
    match s2 with
    | '0' :: 'x' :: r => (16, r)
    | '0' :: 'X' :: r => (16, r)
    | _ => (10, s2)
  let ds := pr.2.takeWhile (fun c => (digitValAt pr.1 c).isSome)
  if ds.isEmpty then none
  else some (sign * (Int.ofNat (ds.foldl (fun acc c => acc * pr.1 + (digitValAt pr.1 c).getD 0) 0)))

/-- `Number.isSafeInteger` on an exact integer. -/
def isSafeIntegerJS (n : Int) : Bool := n.natAbs ≤ 2 ^ 53 - 1

def lev3min (a b c : Nat) : Nat := Nat.min a (Nat.min b c)

/-- One sweep of the Levenshtein DP row update (`getLevenshteinDistance` in
`strings.ts` builds the full matrix; this computes row `i` from row `i-1`). -/
def levGo (bc : Char) : Str → List Nat → Nat → List Nat
  | [], _, _ => []
  | _ :: _, [], _ => []
  | _ :: _, [_], _ => []
  | c :: cs, p0 :: p1 :: ps, left =>
    let v := if bc = c then p0 else 1 + lev3min p0 left p1
    v :: levGo bc cs (p1 :: ps) v

/-- `getLevenshteinDistance` from `strings.ts`. -/
def getLevenshteinDistance (a b : Str) : Nat :=
  let row0 := List.range (a.length + 1)
  let fin := b.enum.foldl (fun prev p => (p.1 + 1) :: levGo p.2 a prev (p.1 + 1)) row0
  fin.getLastD 0

/-- Values a (modelled) flag can hold.  Structural equality on this type
agrees with the `JSON.stringify`-based comparison the source uses for
allow-list membership (`NaN` stringifies to `null` on both sides). -/
inductive Value where
  | vStr (s : Str)
  | vInt (n : Option Int)
  | vBool (b : Bool)
deriving DecidableEq

/-- The flag classes the claims are about: `FlagString`, `FlagInt`,
`FlagUint`, `FlagBoolean` from `flag.ts`. -/
inductive FlagKind where
  | str
  | int
  | uint
  | bool
deriving DecidableEq

/-- One flag object (`class Flag` and its subclasses in `flag.ts`).
`verify_` is the optional user validation hook (`true` = accept,
`false` = throw); `value_` is the mutable current value. -/
structure Flag where
  name : Str
  short : Str := []
  kind : FlagKind
  dflt : Option Value := none
  values : Option (List Value) := none
  verify_ : Option (Value → Bool) := none
  value_ : Option Value := none

/-- `get value()`: `this.value_ ?? this.default ?? null`.  JS `??` fires only
on `null`/`undefined`, so a parsed falsy value (`false`, `0`, `""`) is kept. -/
def Flag.value (f : Flag) : Option Value :=
  match f.value_ with
  | some v => some v
  | none => f.dflt

def Flag.isBool (f : Flag) : Bool :=
  match f.kind with
  | .bool => true
  | _ => false

def notInListMsg : Str := lit "value is not in the list of available values"

def verifyFailedMsg : Str := lit "verify failed"

/-- `Flag._verifyValues`: structural membership in the allow-list. -/
def Flag.verifyValues (f : Flag) (v : Value) : Except Str Unit :=
  match f.values with
  | some vals => if v ∈ vals then Except.ok () else Except.error notInListMsg
  | none => Except.ok ()

/-- The built-in numeric check performed by `FlagInt.verify` / `FlagUint.verify`
when no custom hook is installed; other kinds have no built-in check. -/
def Flag.builtinCheck (f : Flag) (v : Value) : Except Str Unit :=
  match f.kind with
  | .int =>
    match v with
    | .vInt (some n) =>
      if isSafeIntegerJS n then Except.ok () else Except.error (lit "is not safe integer")
    | _ => Except.error (lit "is not safe integer")
  | .uint =>
    match v with
    | .vInt (some n) =>
      if isSafeIntegerJS n ∧ 0 ≤ n then Except.ok ()
      else Except.error (lit "is not safe unsigned integer")
    | _ => Except.error (lit "is not safe unsigned integer")
  | _ => Except.ok ()

/-- `Flag.verify` (and the overrides in the numeric subclasses): allow-list
first; then the custom hook if present, otherwise the built-in check. -/
def Flag.verify (f : Flag) (v : Value) : Except Str Unit :=
  match f.verifyValues v with
  | Except.error e => Except.error e
  | Except.ok _ =>
    match f.verify_ with
    | some h => if h v then Except.ok () else Except.error verifyFailedMsg
    | none => f.builtinCheck v

/-- Text-to-value conversion used by each subclass's `parse`. -/
def FlagKind.convert : FlagKind → Str → Value
  | .str, s => .vStr s
  | .bool, s => .vBool (parseBoolJS s)
  | .int, s => .vInt (parseIntJS s)
  | .uint, s => .vInt (parseIntJS s)

/-- `parse(s)` of each flag subclass: convert, verify, store. -/
def Flag.parse (f : Flag) (s : Str) : Except Str Flag :=
  let v := f.kind.convert s
  match f.verify v with
  | Except.error e => Except.error e
  | Except.ok _ => Except.ok { f with value_ := some v }

/-- `Flag.reset`: clear the current value (the default is kept as fallback). -/
def Flag.reset (f : Flag) : Flag := { f with value_ := none }

/-- JS template-string coercion applied to allow-list entries in
`guessString` (identity on strings). -/
def valTemplate : Value → Str
  | .vStr s => s
  | .vBool true => lit "true"
  | .vBool false => lit "false"
  | .vInt (some n) => lit (toString n)
  | .vInt none => lit "NaN"

/-- The loop body of `guessString`: keep the candidate when its distance is
within the running bound (which then shrinks to that distance). -/
def gsStep (input : Str) (st : Int × Option Str) (val : Value) : Int × Option Str :=
  let s := valTemplate val
  let i : Int := (getLevenshteinDistance input s : Nat)
  if i ≤ st.1 then (i, some s) else st

/-- `guessString` from `flag.ts`: closest allow-list entry within the
distance threshold (default 2; non-positive threshold disables). -/
def guessString (input : Str) (values : Option (List Value)) (d : Option Int) : Option Str :=
  match values with
  | none => none
  | some vals =>
    let thr : Int := d.getD 2
    if 0 < thr then (vals.foldl (gsStep input) ((thr, none) : Int × Option Str)).2
    else none

/-- `guess`: only `FlagString` (and the array variant) override the base
class's `null`-returning `guess`; every other kind never suggests. -/
def Flag.guess (f : Flag) (input : Str) (d : Option Int) : Option Str :=
  match f.kind with
  | .str => guessString input f.values d
  | _ => none

example : parseBoolJS (lit "1") = true := by decide
example : parseBoolJS (lit "False") = false := by decide
example : parseIntJS (lit "-1") = some (-1) := by decide
example : parseIntJS (lit "not-a-number") = none := by decide
example : parseIntJS (lit "0x1A") = some 26 := by decide
example : parseIntJS (lit "  42abc") = some 42 := by decide
example : getLevenshteinDistance (lit "kitten") (lit "sitting") = 3 := by decide
example : getLevenshteinDistance (lit "ab") (lit "ax") = 1 := by decide

/-- One node of the subcommand tree (`class Command`).  `hasRun` records
whether a `run` callback is installed; the callback itself is foreign code,
so executing it is modelled by recording the call (see `Invocation`). -/
inductive Cmd where
  | mk (name : Str) (flags : List Flag) (hasRun : Bool) (children : List Cmd)

def Cmd.name : Cmd → Str
  | .mk n _ _ _ => n

def Cmd.flags : Cmd → List Flag
  | .mk _ fs _ _ => fs

def Cmd.hasRun : Cmd → Bool
  | .mk _ _ r _ => r

def Cmd.children : Cmd → List Cmd
  | .mk _ _ _ cs => cs

def Cmd.withFlags : Cmd → List Flag → Cmd
  | .mk n _ r cs, fs => .mk n fs r cs

/-- `Command.child`: children live in a `Map` keyed by (unique) name. -/
def Cmd.child (c : Cmd) (arg : Str) : Option Cmd :=
  c.children.find? (fun k => k.name == arg)

/-- `Command.hasChildren`. -/
def Cmd.hasChildren (c : Cmd) : Bool := !c.children.isEmpty

/-- `Command.guess`: closest child name by edit distance (threshold defaults
to 2; note the source has no positivity guard here, unlike `Flags.guess`). -/
def Cmd.guess (c : Cmd) (arg : Str) (d : Option Int) : Option Cmd :=
  let thr : Int := d.getD 2
  (c.children.foldl
    (fun st k =>
      let i : Int := (getLevenshteinDistance arg k.name : Nat)
      if i ≤ st.1 then (i, some k) else st)
    ((thr, none) : Int × Option Cmd)).2

/-- `Flags.find(name, short)`: the short-name map only holds entries for
flags with a nonempty shorthand. -/
def findFlag (fs : List Flag) (name : Str) (short : Bool) : Option Flag :=
  if short then fs.find? (fun f => f.short == name && !f.short.isEmpty)
  else fs.find? (fun f => f.name == name)

/-- `Flags.guess`: closest long flag name within the threshold
(threshold defaults to 2; non-positive threshold disables). -/
def flagsGuess (fs : List Flag) (name : Str) (d : Option Int) : Option Flag :=
  let thr : Int := d.getD 2
  if 0 < thr then
    (fs.foldl
      (fun st f =>
        let i : Int := (getLevenshteinDistance name f.name : Nat)
        if i ≤ st.1 then (i, some f) else st)
      ((thr, none) : Int × Option Flag)).2
  else none

/-- `Flags.reset`: clear the current value of every owned flag. -/
def resetFlags (fs : List Flag) : List Flag := fs.map Flag.reset

def Cmd.resetTop (c : Cmd) : Cmd := c.withFlags (resetFlags c.flags)

/-- Write a mutated flag object back into its registry (the registry is a
name-keyed map in the source, so the write is by long name). -/
def updateFlag (fs : List Flag) (f : Flag) : List Flag :=
  fs.map (fun g => if g.name == f.name then f else g)

/-- `getLogName` from `parser.ts`: split a long-flag body at the first `=`;
the value part keeps the `=`. -/
def getLogName (s : Str) : Str × Str :=
  match s.findIdx? (fun c => c == '=') with
  | none => (s, [])
  | some i => (s.take i, s.drop i)

/-- `RunMode` from `parser.ts`. -/
inductive RunMode where
  | all
  | last
  | runner
deriving DecidableEq

/-- `ParseCommandOptions` (the fields the engine reads; `userdata` is
passed separately to keep the result type parametric). -/
structure ParseCommandOptions where
  mode : Option RunMode := none
  allowUnknowFlag : Bool := false
  allowUnknowCommand : Bool := false
  levenshteinDistance : Option Int := none

/-- Structured form of the `ParseCommandError` messages thrown by
`throwFlag` / `throwCommand`: each constructor carries the data the
corresponding message string is built from. -/
inductive ParseCommandError where
  | invalidArg (token : Str) (v : Str) (flagName : Str) (msg : Str)
  | unknowFlag (name : Str) (token : Str) (mean : Option Str)
  | unknowShorthand (name : Str) (token : Str)
  | needsArgument (flagName : Str)
  | unknowCommand (arg : Str) (cmdName : Str) (mean : Option Str)
deriving DecidableEq

/-- The `flag` loop variable of `parseCommand` can hold either a flag from
the current command's registry or the engine-owned implicit help flag. -/
inductive FFlag where
  | reg (f : Flag)
  | helpF

def FFlag.isBool : FFlag → Bool
  | .reg f => f.isBool
  | .helpF => true

/-- The `Runner` record of `parser.ts` (without its `result` slot, which is
filled at dispatch time, see `execSlot`). -/
structure Runner where
  cmd : Cmd
  args : List Str

/-- The mutable state of the token loop in `parseCommand`:
the current command, its positional accumulator (`strs`), the runners
frozen by earlier descents (`done` — a runner's `args` array is never
touched again once the loop descended past it), the pending flag slot and
its display name, and the engine-owned help flag's current value. -/
structure PState where
  cmd : Cmd
  strs : List Str
  done : List Runner
  pend : Option FFlag
  pendName : Str
  helpVal : Option Bool

/-- `cmd.flags.find(name, short) ?? (name === 'help'/'h' ? help : undefined)`. -/
def findFF (c : Cmd) (name : Str) (short : Bool) : Option FFlag :=
  match findFlag c.flags name short with
  | some f => some (.reg f)
  | none =>
    if short then (if name == lit "h" then some .helpF else none)
    else (if name == lit "help" then some .helpF else none)

/-- `flag.parse(v)` with the mutation written back: a registry flag is
updated in the current command's registry; the help flag updates the
engine-owned slot (a `FlagBoolean` with no allow-list and no hook, whose
`parse` cannot fail). -/
def applyFF (st : PState) (ff : FFlag) (v : Str) : Except Str PState :=
  match ff with
  | .helpF => .ok { st with helpVal := some (parseBoolJS v) }
  | .reg f =>
    match f.parse v with
    | .error e => .error e
    | .ok f' => .ok { st with cmd := st.cmd.withFlags (updateFlag st.cmd.flags f') }

/-- The shorthand `while (true)` chain of `parseCommand` (token `-xyz...`):
`ff` is the already-resolved current short flag, `fname` its display name,
and the third argument the remaining text `s` after the flag's character
(`s.startsWith('=')` becomes a head-character test). -/
def chain (arg : Str) : FFlag → Str → Str → PState → Except ParseCommandError PState
  | ff, fname, [], st =>
    if ff.isBool then
      match applyFF st ff (lit "1") with
      | .error e => .error (.invalidArg arg (lit "1") fname e)
      | .ok st' => .ok { st' with pend := none, pendName := fname }
    else .ok { st with pend := some ff, pendName := fname }
  | ff, fname, c :: cs, st =>
    if c = '=' then
      match applyFF st ff cs with
      | .error e => .error (.invalidArg arg cs fname e)
      | .ok st' => .ok { st' with pend := none, pendName := fname }
    else if ff.isBool = false then
      match applyFF st ff (c :: cs) with
      | .error e => .error (.invalidArg arg (c :: cs) fname e)
      | .ok st' => .ok { st' with pend := none, pendName := fname }
    else
      match applyFF st ff (lit "1") with
      | .error e => .error (.invalidArg arg (lit "1") fname e)
      | .ok st' =>
        match ff with
        | .helpF => .ok { st' with pend := some FFlag.helpF, pendName := fname }
        | .reg _ =>
          match findFF st'.cmd [c] true with
          | none => .error (.unknowShorthand [c] arg)
          | some ff2 => chain arg ff2 ('-' :: [c]) cs st'

/-- The tail of a loop iteration: subcommand resolution (only before any
positional has been recorded in the current scope) or positional push. -/
def fallthroughTok (auc : Bool) (lev : Option Int) (arg : Str) (st : PState) :
    Except ParseCommandError PState :=
  if st.strs.isEmpty && st.cmd.hasChildren then
    match st.cmd.child arg with
    | some found =>
      .ok { st with done := st.done ++ [⟨st.cmd, st.strs⟩], cmd := found.resetTop, strs := [] }
    | none =>
      if auc = false then
        .error (.unknowCommand arg st.cmd.name ((st.cmd.guess arg lev).map Cmd.name))
      else .ok { st with strs := st.strs ++ [arg] }
  else .ok { st with strs := st.strs ++ [arg] }

inductive LoopOut where
  | helpOut (st : PState)
  | finished (st : PState)

/-- `arg.startsWith('--')`. -/
def startsWith2Dash (arg : Str) : Bool := decide (arg.take 2 = ['-', '-'])

/-- `arg.startsWith('-')`. -/
def startsWith1Dash (arg : Str) : Bool := decide (arg.take 1 = ['-'])

/-- One iteration of the `for (const arg of args)` loop of `parseCommand`,
minus the help short-circuit at the top (the loop's only mid-iteration
`return`, kept in `loop` itself below). -/
def stepTok (auf auc : Bool) (lev : Option Int) (arg : Str) (st : PState) :
    Except ParseCommandError PState :=
  match st.pend with
  | some ff =>
    match applyFF st ff arg with
    | .error e => .error (.invalidArg arg arg st.pendName e)
    | .ok st' => .ok { st' with pend := none }
  | none =>
    if arg = lit "-" then
      .ok { st with strs := st.strs ++ [arg] }
    else if startsWith2Dash arg then
      let nv := getLogName (arg.drop 2)
      let fname : Str := lit "--" ++ nv.1
      match findFF st.cmd nv.1 false with
      | some ff =>
        (match nv.2 with
         | '=' :: v =>
           match applyFF st ff v with
           | .error e => .error (.invalidArg arg v fname e)
           | .ok st' => .ok { st' with pend := none, pendName := fname }
         | _ =>
           if ff.isBool then
             match applyFF st ff (lit "1") with
             | .error e => .error (.invalidArg arg (lit "1") fname e)
             | .ok st' => .ok { st' with pend := none, pendName := fname }
           else .ok { st with pend := some ff, pendName := fname })
      | none =>
        if auf = false then
          .error (.unknowFlag nv.1 arg ((flagsGuess st.cmd.flags nv.1 lev).map Flag.name))
        else fallthroughTok auc lev arg { st with pendName := fname }
    else if startsWith1Dash arg then
      let name : Str := (arg.drop 1).take 1
      let fname : Str := '-' :: name
      match findFF st.cmd name true with
      | some ff => chain arg ff fname (arg.drop 2) { st with pendName := fname }
      | none =>
        if auf = false then .error (.unknowShorthand name arg)
        else fallthroughTok auc lev arg { st with pendName := fname }
    else fallthroughTok auc lev arg st

/-- The checks performed after the token loop ends
(`help.value`, dangling pending flag). -/
def endCheck (st : PState) : Except ParseCommandError LoopOut :=
  if st.helpVal = some true then .ok (.helpOut st)
  else
    match st.pend with
    | some _ => .error (.needsArgument st.pendName)
    | none => .ok (.finished st)

/-- The token loop of `parseCommand`, token by token, including the
help short-circuit at the top of every iteration and the post-loop checks. -/
def loop (auf auc : Bool) (lev : Option Int) : List Str → PState → Except ParseCommandError LoopOut
  | [], st => endCheck st
  | arg :: rest, st =>
    if st.helpVal = some true then .ok (.helpOut st)
    else
      match stepTok auf auc lev arg st with
      | .error e => .error e
      | .ok st' => loop auf auc lev rest st'

/-- The record a `run` callback receives when invoked: its accumulated
positional arguments, the shared userdata, and the matched command itself.
Executing a foreign callback is modelled by recording this call. -/
structure Invocation (U : Type) where
  args : List Str
  userdata : U
  cmd : Cmd

/-- `ParseCommandResult`: help indicator, per-command results (`none` for a
command without an executable, i.e. `undefined`), or the runner list. -/
structure ParseCommandResult (U : Type) where
  help : Bool := false
  values : Option (List (Option (Invocation U))) := none
  runners : Option (List Runner) := none

/-- Executing one runner at dispatch: `run(runner.args, userdata, runner.cmd)`
when a callback exists, `undefined` otherwise. -/
def execSlot {U : Type} (u : U) (r : Runner) : Option (Invocation U) :=
  if r.cmd.hasRun then some ⟨r.args, u, r.cmd⟩ else none

/-- Heap reconstruction: the TS engine mutates the matched child in place
inside its parent's `children` map; immutably, plug the final child back in
by name. -/
def Cmd.replaceChildByName (parent : Cmd) (c : Cmd) : Cmd :=
  Cmd.mk parent.name parent.flags parent.hasRun
    (parent.children.map (fun k => if k.name == c.name then c else k))

/-- Rebuild the live runner list from the frozen runners and the current
leaf: each frozen parent gets its (mutated) matched child plugged back in,
so every runner's `cmd` is the object as the heap holds it at dispatch. -/
def liveChain : List Runner → Runner → List Runner
  | [], leaf => [leaf]
  | r :: rs, leaf =>
    match liveChain rs leaf with
    | [] => [leaf]
    | c :: cs => ⟨r.cmd.replaceChildByName c.cmd, r.args⟩ :: c :: cs

def PState.liveRunners (st : PState) : List Runner :=
  liveChain st.done ⟨st.cmd, st.strs⟩

/-- The root command as the heap holds it when the parse ends. -/
def PState.finalRoot (st : PState) : Cmd :=
  (st.liveRunners.headD ⟨st.cmd, st.strs⟩).cmd

/-- `parseCommand(args, cmd, opts)` with `userdata` passed explicitly.
Returns the parse result together with the final state of the (mutated)
command tree. -/
def parseCommand {U : Type} (args : List Str) (cmd : Cmd) (opts : ParseCommandOptions)
    (userdata : U) : Except ParseCommandError (ParseCommandResult U × Cmd) :=
  let st0 : PState := ⟨cmd.resetTop, [], [], none, [], none⟩
  match loop opts.allowUnknowFlag opts.allowUnknowCommand opts.levenshteinDistance args st0 with
  | .error e => .error e
  | .ok (.helpOut st) => .ok ({ help := true }, st.finalRoot)
  | .ok (.finished st) =>
    match opts.mode with
    | some RunMode.all =>
      .ok ({ values := some (st.liveRunners.map (execSlot userdata)) }, st.finalRoot)
    | some RunMode.runner =>
      .ok ({ runners := some st.liveRunners }, st.finalRoot)
    | _ =>
      .ok ({ values := some [execSlot userdata ⟨st.cmd, st.strs⟩] }, st.finalRoot)

/-! ## Flag-level claims -/

def boolFlagW : Flag := { name := lit "debug", short := lit "d", kind := .bool }

def portFlag : Flag := { name := lit "port", short := lit "p", kind := .uint }

def countFlag : Flag := { name := lit "count", short := lit "c", kind := .int }

def uintRoot : Cmd := .mk (lit "test") [portFlag] true []

def colorFlag : Flag :=
  { name := lit "color", short := lit "c", kind := .str,
    values := some [.vStr (lit "red"), .vStr (lit "blue")],
    verify_ := some (fun v => v == .vStr (lit "red")) }

/-- Edit distance from the input to a candidate's display text. -/
def gdist (input : Str) (u : Value) : Int :=
  (getLevenshteinDistance input (valTemplate u) : Nat)

def helpStateW : PState := ⟨uintRoot.resetTop, [], [], none, [], some true⟩

def c8Root : Cmd := .mk (lit "root") [] true [.mk (lit "serve") [] true []]

def c3Root : Cmd := .mk (lit "test") [{ name := lit "cc", short := lit "c", kind := .str }] true []

/-- A boolean flag with neither allow-list nor custom hook: its parse of
`"1"` always succeeds and stores `true`. -/
def boolSimple (f : Flag) : Prop :=
  f.kind = .bool ∧ f.values = none ∧ f.verify_ = none

/-- Specification-side version of one boolean link of a shorthand chain:
set the flag with this shorthand character to `true`. -/
def setBoolByShort (fs : List Flag) (c : Char) : List Flag :=
  match findFlag fs [c] true with
  | some f => updateFlag fs { f with value_ := some (.vBool true) }
  | none => fs

def setBoolsByShort (fs : List Flag) (cs : List Char) : List Flag :=
  cs.foldl setBoolByShort fs

/-- The display name of the last flag resolved in a chain. -/
def lastFName (fname : Str) (cs : List Char) : Str :=
  match cs.getLast? with
  | none => fname
  | some c => ['-', c]

def c2Root : Cmd := .mk (lit "test")
  [{ name := lit "aa", short := lit "a", kind := .bool },
   { name := lit "bb", short := lit "b", kind := .bool },
   { name := lit "cc", short := lit "c", kind := .str }] true []

/-- The name of the next command after the runners `rs` on a path ending in
the current command `cur`. -/
def nextName : List Runner → Cmd → Str
  | [], cur => cur.name
  | r :: _, _ => r.cmd.name

/-- The frozen runners followed by the current command form a root-to-leaf
chain: each runner's successor is (by name) one of its children. -/
def runnerChain : List Runner → Cmd → Prop
  | [], _ => True
  | r :: rs, cur => nextName rs cur ∈ r.cmd.children.map Cmd.name ∧ runnerChain rs cur

/-- The matched path's root: the first frozen runner, or the current command. -/
def headName (st : PState) : Str := nextName st.done st.cmd

/-- Successive live runners are genuinely parent and child: each runner's
command is an element of the previous runner's `children`. -/
def chainLive : List Runner → Prop
  | [] => True
  | [_] => True
  | a :: b :: rs => b.cmd ∈ a.cmd.children ∧ chainLive (b :: rs)

/-- What dispatch guarantees once the loop has finished without help:
the live runners form a nonempty root-to-leaf chain starting at (the final
state of) the root and ending at the innermost matched command with its own
positionals, and the result is assembled from them according to the mode. -/
def dispatchConclusion {U : Type} (u : U) (root : Cmd) (opts : ParseCommandOptions)
    (res : ParseCommandResult U) (rootFin : Cmd) : Prop :=
  ∃ (st : PState) (hd : Runner) (tl : List Runner),
    st.liveRunners = hd :: tl
    ∧ hd.cmd.name = root.name
    ∧ rootFin = hd.cmd
    ∧ chainLive (hd :: tl)
    ∧ (hd :: tl).getLast? = some ⟨st.cmd, st.strs⟩
    ∧ (hd :: tl).map Runner.args = st.done.map Runner.args ++ [st.strs]
    ∧ (opts.mode = some RunMode.all →
        res = { values := some ((hd :: tl).map (execSlot u)) })
    ∧ (opts.mode = some RunMode.runner →
        res = { runners := some (hd :: tl) })
    ∧ ((opts.mode = some RunMode.last ∨ opts.mode = none) →
        res = { values := some [execSlot u ⟨st.cmd, st.strs⟩] })
    ∧ (∀ r : Runner, r.cmd.hasRun = true → execSlot u r = some ⟨r.args, u, r.cmd⟩)
    ∧ (∀ r : Runner, r.cmd.hasRun = false → execSlot u r = none)

def c1Serve : Cmd := Cmd.mk (lit "serve") [] true []

def c1Root : Cmd := Cmd.mk (lit "app") [] true [c1Serve]

def c1Res : ParseCommandResult Nat :=
  { values := some [some ⟨[], 7, c1Root⟩, some ⟨[lit "x"], 7, c1Serve⟩] }

/-- The root of the tree as the heap holds it, rebuilt from the frozen
runners down to the current command (each frozen parent gets the mutated
matched child plugged back in by name). -/
def rootOfChain : List Runner → Cmd → Cmd
  | [], cur => cur
  | r :: rs, cur => r.cmd.replaceChildByName (rootOfChain rs cur)

/-- The names of the commands matched strictly below the root: the frozen
runners after the first one, then the current command. -/
def tailNames : List Runner → Cmd → List Str
  | [], _ => []
  | _ :: rs, cur => rs.map (fun r => r.cmd.name) ++ [cur.name]

/-- Recursively well-named command tree: every node's children have
pairwise distinct names (children live in a name-keyed `Map` in the
source). -/
inductive WFN : Cmd → Prop
  | mk (n : Str) (fs : List Flag) (r : Bool) (cs : List Cmd)
      (hnd : (cs.map Cmd.name).Nodup) (hch : ∀ k ∈ cs, WFN k) : WFN (.mk n fs r cs)

/-- `OnlyPathChanged p o n`: the tree `n` is the tree `o` with changes
confined to the path named by `p` below the root: on-path nodes keep their
name, executable and children list (only their flag registry may differ),
and every off-path child subtree of `n` is the very object it is in `o`. -/
def OnlyPathChanged : List Str → Cmd → Cmd → Prop
  | [], o, n => n.name = o.name ∧ n.hasRun = o.hasRun ∧ n.children = o.children
  | x :: xs, o, n => n.name = o.name ∧ n.hasRun = o.hasRun ∧
      List.Forall₂ (fun k k' => (k.name = x → OnlyPathChanged xs k k') ∧ (k.name ≠ x → k' = k))
        o.children n.children

def c5PortDirty : Flag := { name := lit "port", kind := .uint, value_ := some (.vInt (some 1)) }

def c5OtherFlag : Flag := { name := lit "x", kind := .str, value_ := some (.vStr (lit "stale")) }

def c5Serve : Cmd := .mk (lit "serve") [c5PortDirty] true []

def c5Other : Cmd := .mk (lit "other") [c5OtherFlag] false []

def c5Flag : Flag := { name := lit "mode", short := lit "m", kind := .str, value_ := some (.vStr (lit "old")) }

def c5Root : Cmd := .mk (lit "root") [c5Flag] true [c5Serve, c5Other]

def c5St0 : PState := ⟨c5Root.resetTop, [], [], none, [], none⟩

def c5St1 : PState := ⟨c5Serve.resetTop, [], [⟨c5Root.resetTop, []⟩], none, [], none⟩

def c5Res : ParseCommandResult Nat :=
  { values := some [some ⟨[], 0, c5Serve.resetTop⟩] }

def c5Fin : Cmd := Cmd.mk (lit "root") [Flag.reset c5Flag] true [c5Serve.resetTop, c5Other]

/-- C10: for every flag, the `value` getter returns the most recently parsed
value of the current execution whenever one exists — including falsy parsed
values such as `false`, `0`, or the empty string, which are not replaced by
the default — and falls back to the default only when the flag has never been
parsed since its last reset; when there is also no default, it returns null. -/
theorem claim10_value_getter :
    (∀ (f : Flag) (v : Value), f.value_ = some v → f.value = some v)
  ∧ (∀ (f : Flag) (s : Str) (f' : Flag), f.parse s = .ok f' →
      f'.value = some (f.kind.convert s))
  ∧ (∀ f : Flag, f.value_ = none → f.value = f.dflt)
  ∧ (∀ f : Flag, f.value_ = none → f.dflt = none → f.value = none)
  ∧ (∀ f : Flag, (f.reset).value = f.dflt)
  ∧ (∀ (f : Flag) (d : Value),
      ({ f with value_ := some (.vBool false), dflt := some d } : Flag).value
        = some (.vBool false))
  ∧ (∀ (f : Flag) (d : Value),
      ({ f with value_ := some (.vInt (some 0)), dflt := some d } : Flag).value
        = some (.vInt (some 0)))
  ∧ (∀ (f : Flag) (d : Value),
      ({ f with value_ := some (.vStr []), dflt := some d } : Flag).value
        = some (.vStr [])) := by
  refine ⟨?_, ?_, ?_, ?_, ?_, ?_, ?_, ?_⟩
  · intro f v h
    simp [Flag.value, h]
  · intro f s f' h
    simp only [Flag.parse] at h
    rcases hv : f.verify (f.kind.convert s) with e | u <;> simp only [hv] at h
    · simp at h
    · simp only [Except.ok.injEq] at h
      subst h
      simp [Flag.value]
  · intro f h
    simp [Flag.value, h]
  · intro f h h2
    simp [Flag.value, h, h2]
  · intro f
    simp [Flag.value, Flag.reset]
  · intro f d
    simp [Flag.value]
  · intro f d
    simp [Flag.value]
  · intro f d
    simp [Flag.value]

theorem claim10_witness :
    ({ boolFlagW with value_ := some (.vBool false) } : Flag).value = some (.vBool false)
  ∧ ({ boolFlagW with dflt := some (.vBool true) } : Flag).value = some (.vBool true)
  ∧ boolFlagW.value = none :=
  ⟨claim10_value_getter.1 _ _ rfl,
   claim10_value_getter.2.2.1 _ rfl,
   claim10_value_getter.2.2.2.1 _ rfl rfl⟩

/-- C6: signed-integer (`int`) and unsigned-integer (`uint`) flags use
`parseInt`-based exact-integer text parsing and reject `NaN` / non-safe
results with a flag error; `uint` additionally rejects negative values.
In particular (no custom hook): a `uint` flag rejects `"-1"` and an `int`
flag rejects `"not-a-number"`, and the engine surfaces the rejection as a
flag error. -/
theorem claim6_int_uint :
    (∀ (f : Flag) (s : Str), f.kind = .int → f.values = none → f.verify_ = none →
      ((∃ f', f.parse s = .ok f') ↔ ∃ n, parseIntJS s = some n ∧ isSafeIntegerJS n = true))
  ∧ (∀ (f : Flag) (s : Str), f.kind = .uint → f.values = none → f.verify_ = none →
      ((∃ f', f.parse s = .ok f') ↔
        ∃ n, parseIntJS s = some n ∧ isSafeIntegerJS n = true ∧ 0 ≤ n))
  ∧ (∀ f : Flag, f.kind = .uint → f.values = none → f.verify_ = none →
      f.parse (lit "-1") = .error (lit "is not safe unsigned integer"))
  ∧ (∀ f : Flag, f.kind = .int → f.values = none → f.verify_ = none →
      f.parse (lit "not-a-number") = .error (lit "is not safe integer"))
  ∧ parseCommand (U := Unit) [lit "--port", lit "-1"] uintRoot {} ()
      = .error (.invalidArg (lit "-1") (lit "-1") (lit "--port")
          (lit "is not safe unsigned integer")) := by
  refine ⟨?_, ?_, ?_, ?_, by rfl⟩
  · intro f s hk hv hh
    simp only [Flag.parse, Flag.verify, Flag.verifyValues, Flag.builtinCheck,
      FlagKind.convert, hk, hv, hh]
    rcases hp : parseIntJS s with _ | n
    · simp
    · by_cases hs : isSafeIntegerJS n = true <;> simp [hs]
  · intro f s hk hv hh
    simp only [Flag.parse, Flag.verify, Flag.verifyValues, Flag.builtinCheck,
      FlagKind.convert, hk, hv, hh]
    rcases hp : parseIntJS s with _ | n
    · simp
    · by_cases hs : (isSafeIntegerJS n ∧ 0 ≤ n) <;> simp [hs]
  · intro f hk hv hh
    simp only [Flag.parse, Flag.verify, Flag.verifyValues, Flag.builtinCheck,
      FlagKind.convert, hk, hv, hh]
    norm_num [show parseIntJS (lit "-1") = some (-1) from by decide,
      show isSafeIntegerJS (-1) = true from by decide]
  · intro f hk hv hh
    simp only [Flag.parse, Flag.verify, Flag.verifyValues, Flag.builtinCheck,
      FlagKind.convert, hk, hv, hh]
    norm_num [show parseIntJS (lit "not-a-number") = none from by decide]

theorem claim6_witness :
    portFlag.parse (lit "-1") = .error (lit "is not safe unsigned integer")
  ∧ countFlag.parse (lit "not-a-number") = .error (lit "is not safe integer")
  ∧ (∃ f', countFlag.parse (lit "-1") = .ok f') :=
  ⟨claim6_int_uint.2.2.1 portFlag rfl rfl rfl,
   claim6_int_uint.2.2.2.1 countFlag rfl rfl rfl,
   (claim6_int_uint.1 countFlag (lit "-1") rfl rfl rfl).2 ⟨-1, by decide, by decide⟩⟩

/-- C7: when a flag has both an allow-list and a custom verify hook, a
candidate failing the allow-list raises the not-in-allowed-values error
with a result independent of the hook (the hook is never invoked); a
candidate passing the allow-list is still handed to the hook, whose
rejection fails the parse. -/
theorem claim7_allowlist_precedence :
    (∀ (f : Flag) (vals : List Value) (v : Value) (h : Option (Value → Bool)),
      f.values = some vals → v ∉ vals →
      Flag.verify { f with verify_ := h } v = .error notInListMsg)
  ∧ (∀ (f : Flag) (vals : List Value) (v : Value) (h : Value → Bool),
      f.values = some vals → v ∈ vals → f.verify_ = some h →
      f.verify v = (if h v then .ok () else .error verifyFailedMsg))
  ∧ (∀ (f : Flag) (vals : List Value) (s : Str) (h : Value → Bool),
      f.kind = .str → f.values = some vals → (Value.vStr s) ∈ vals →
      f.verify_ = some h → h (.vStr s) = false →
      f.parse s = .error verifyFailedMsg) := by
  refine ⟨?_, ?_, ?_⟩
  · intro f vals v h hv hm
    simp [Flag.verify, Flag.verifyValues, hv, hm]
  · intro f vals v h hv hm hh
    simp [Flag.verify, Flag.verifyValues, hv, hm, hh]
  · intro f vals s h hk hv hm hh hr
    simp [Flag.parse, Flag.verify, Flag.verifyValues, FlagKind.convert, hk, hv, hm, hh, hr]

theorem claim7_witness :
    colorFlag.verify (.vStr (lit "green")) = .error notInListMsg
  ∧ colorFlag.verify (.vStr (lit "blue")) = .error verifyFailedMsg
  ∧ colorFlag.parse (lit "blue") = .error verifyFailedMsg :=
  ⟨claim7_allowlist_precedence.1 colorFlag _ _ _ rfl (by decide),
   by
    have := claim7_allowlist_precedence.2.1 colorFlag
      [.vStr (lit "red"), .vStr (lit "blue")] (.vStr (lit "blue"))
      (fun v => v == .vStr (lit "red")) rfl (by decide) rfl
    simpa using this,
   claim7_allowlist_precedence.2.2 colorFlag _ (lit "blue") _ rfl rfl (by decide) rfl (by decide)⟩

/-! ## Suggestion (`guessString`) claims -/

/-- Characterisation of the `guessString` fold: either no candidate came
within the running bound (state unchanged), or the result is the *last*
candidate attaining the minimal distance (within the initial bound). -/
theorem gsFold (input : Str) (vals : List Value) :
    ∀ st : Int × Option Str,
      (vals.foldl (gsStep input) st = st ∧ ∀ u ∈ vals, ¬ gdist input u ≤ st.1)
    ∨ (∃ pre u post, vals = pre ++ u :: post
        ∧ (vals.foldl (gsStep input) st).1 = gdist input u
        ∧ (vals.foldl (gsStep input) st).2 = some (valTemplate u)
        ∧ gdist input u ≤ st.1
        ∧ (∀ w ∈ vals, (vals.foldl (gsStep input) st).1 ≤ gdist input w)
        ∧ (∀ w ∈ post, (vals.foldl (gsStep input) st).1 < gdist input w)) := by
  induction vals with
  | nil =>
    intro st
    left
    exact ⟨rfl, by simp⟩
  | cons v0 rest ih =>
    intro st
    by_cases h0 : gdist input v0 ≤ st.1
    · have hstep : gsStep input st v0 = (gdist input v0, some (valTemplate v0)) := by
        simp only [gsStep, gdist] at h0 ⊢
        rw [if_pos h0]
      rw [List.foldl_cons, hstep]
      rcases ih (gdist input v0, some (valTemplate v0)) with ⟨heq, hall⟩ |
        ⟨pre, u, post, hsplit, h1, h2, h3, h4, h5⟩
      · right
        refine ⟨[], v0, rest, by simp, by simp [heq], by simp [heq], h0, ?_, ?_⟩
        · intro w hw
          rcases List.mem_cons.mp hw with rfl | hw'
          · simp [heq]
          · have hnw := hall w hw'
            simp only [heq]
            simp only [Prod.fst] at hnw ⊢
            omega
        · intro w hw
          have hnw := hall w hw
          simp only [heq]
          simp only [Prod.fst] at hnw ⊢
          omega
      · right
        have h3' : gdist input u ≤ gdist input v0 := h3
        refine ⟨v0 :: pre, u, post, by simp [hsplit], h1, h2, le_trans h3' h0, ?_, h5⟩
        intro w hw
        rcases List.mem_cons.mp hw with rfl | hw'
        · rw [h1]
          omega
        · exact h4 w hw'
    · have hstep : gsStep input st v0 = st := by
        simp only [gsStep, gdist] at h0 ⊢
        rw [if_neg h0]
      rw [List.foldl_cons, hstep]
      rcases ih st with ⟨heq, hall⟩ | ⟨pre, u, post, hsplit, h1, h2, h3, h4, h5⟩
      · left
        refine ⟨heq, ?_⟩
        intro u hu
        rcases List.mem_cons.mp hu with rfl | hu'
        · exact h0
        · exact hall u hu'
      · right
        refine ⟨v0 :: pre, u, post, by simp [hsplit], h1, h2, h3, ?_, h5⟩
        intro w hw
        rcases List.mem_cons.mp hw with rfl | hw'
        · rw [h1]
          omega
        · exact h4 w hw'

/-- C9 (counterexample): with candidates `["ax", "ay"]` and input `"ab"`,
both candidates are at distance 1 (a tie), yet `guessString` returns the
*later* candidate `"ay"`, not the earlier `"ax"` the claim predicts.
Moreover a non-string flag with an allow-list never suggests at all, even
with a distance-0 candidate available. -/
theorem claim9_counterexample :
    guessString (lit "ab") (some [.vStr (lit "ax"), .vStr (lit "ay")]) none = some (lit "ay")
  ∧ getLevenshteinDistance (lit "ab") (lit "ax") = 1
  ∧ getLevenshteinDistance (lit "ab") (lit "ay") = 1
  ∧ (lit "ax") ≠ (lit "ay")
  ∧ Flag.guess { name := lit "n", kind := .int, values := some [.vInt (some 5)] }
      (lit "5") none = none
  ∧ getLevenshteinDistance (lit "5") (valTemplate (.vInt (some 5))) = 0 :=
  ⟨by decide, by decide, by decide, by decide, by decide, by decide⟩

/-- C9 (amended): for a *string-kind* flag with an allow-list, `guess`
computes the edit distance to each candidate and returns a candidate with
minimal distance among those within the threshold (default 2); a threshold
≤ 0 (or an absent allow-list) disables suggestion; a tie at the minimal
distance is broken in favour of the *later* candidate in the list order;
non-string flags never suggest. -/
theorem claim9_amended :
    (∀ (input : Str) (vals : List Value) (d : Option Int),
      d.getD 2 ≤ 0 → guessString input (some vals) d = none)
  ∧ (∀ (input : Str) (d : Option Int), guessString input none d = none)
  ∧ (∀ (input : Str) (vals : List Value) (d : Option Int) (v : Str),
      guessString input (some vals) d = some v →
      ∃ pre u post, vals = pre ++ u :: post ∧ v = valTemplate u
        ∧ gdist input u ≤ d.getD 2
        ∧ (∀ w ∈ vals, gdist input u ≤ gdist input w)
        ∧ (∀ w ∈ post, gdist input u < gdist input w))
  ∧ (∀ (input : Str) (vals : List Value) (d : Option Int),
      0 < d.getD 2 → (∃ u ∈ vals, gdist input u ≤ d.getD 2) →
      (guessString input (some vals) d).isSome)
  ∧ (∀ (f : Flag) (input : Str) (d : Option Int), ¬ f.kind = .str →
      f.guess input d = none)
  ∧ (∀ (f : Flag) (input : Str) (d : Option Int), f.kind = .str →
      f.guess input d = guessString input f.values d) := by
  refine ⟨?_, ?_, ?_, ?_, ?_, ?_⟩
  · intro input vals d h
    simp only [guessString]
    rw [if_neg (by omega)]
  · intro input d
    simp [guessString]
  · intro input vals d v h
    simp only [guessString] at h
    by_cases hthr : 0 < d.getD 2
    · rw [if_pos hthr] at h
      rcases gsFold input vals (d.getD 2, none) with ⟨heq, _⟩ |
        ⟨pre, u, post, hsplit, h1, h2, h3, h4, h5⟩
      · rw [heq] at h
        simp at h
      · rw [h2] at h
        refine ⟨pre, u, post, hsplit, by simpa using h.symm, h3, ?_, ?_⟩
        · intro w hw
          have := h4 w hw
          omega
        · intro w hw
          have := h5 w hw
          omega
    · rw [if_neg hthr] at h
      simp at h
  · intro input vals d hthr ⟨u, hu, hle⟩
    simp only [guessString]
    rw [if_pos hthr]
    rcases gsFold input vals (d.getD 2, none) with ⟨_, hall⟩ |
      ⟨pre, w, post, hsplit, h1, h2, h3, h4, h5⟩
    · exact absurd hle (hall u hu)
    · simp [h2]
  · intro f input d hk
    rcases hfk : f.kind with _ | _ | _ | _
    · exact absurd hfk hk
    · simp [Flag.guess, hfk]
    · simp [Flag.guess, hfk]
    · simp [Flag.guess, hfk]
  · intro f input d hk
    simp [Flag.guess, hk]

theorem claim9_witness :
    (∃ pre u post,
      ([.vStr (lit "ax"), .vStr (lit "ay")] : List Value) = pre ++ u :: post
      ∧ (lit "ay") = valTemplate u
      ∧ gdist (lit "ab") u ≤ (2 : Int)
      ∧ (∀ w ∈ ([.vStr (lit "ax"), .vStr (lit "ay")] : List Value),
          gdist (lit "ab") u ≤ gdist (lit "ab") w)
      ∧ True)
  ∧ Flag.guess { name := lit "n", kind := .uint } (lit "x") none = none := by
  constructor
  · have h := claim9_amended.2.2.1 (lit "ab") [.vStr (lit "ax"), .vStr (lit "ay")]
      none (lit "ay") (by decide)
    rcases h with ⟨pre, u, post, h1, h2, h3, h4, _⟩
    exact ⟨pre, u, post, h1, h2, h3, h4, trivial⟩
  · exact claim9_amended.2.2.2.2.1 _ (lit "x") none (by simp)

/-! ## Help short-circuit (C4) -/

/-- C4: once the implicit help flag is set true — at any point of the parse,
including by the very last token — the parse returns `{help: true}` and no
command executable is invoked: (1) with help set, the loop (any remaining
tokens, including none) immediately yields the help result; (2) the loop can
never reach the dispatch phase (`finished`) with help set; (3) a help result
carries no values and no runners, i.e. no executable was invoked. -/
theorem claim4_help_short_circuit :
    (∀ (auf auc : Bool) (lev : Option Int) (args : List Str) (st : PState),
      st.helpVal = some true → loop auf auc lev args st = .ok (.helpOut st))
  ∧ (∀ (auf auc : Bool) (lev : Option Int) (args : List Str) (st st' : PState),
      loop auf auc lev args st = .ok (.finished st') → ¬ st'.helpVal = some true)
  ∧ (∀ (U : Type) (args : List Str) (cmd : Cmd) (opts : ParseCommandOptions) (u : U)
      (r : ParseCommandResult U) (t : Cmd),
      parseCommand args cmd opts u = .ok (r, t) → r.help = true →
      r.values = none ∧ r.runners = none) := by
  refine ⟨?_, ?_, ?_⟩
  · intro auf auc lev args st h
    cases args with
    | nil => simp [loop, endCheck, h]
    | cons a rest => simp [loop, h]
  · intro auf auc lev args
    induction args with
    | nil =>
      intro st st' h
      simp only [loop, endCheck] at h
      by_cases hh : st.helpVal = some true
      · rw [if_pos hh] at h
        simp at h
      · rw [if_neg hh] at h
        rcases hp : st.pend with _ | f <;> rw [hp] at h
        · simp only [Except.ok.injEq, LoopOut.finished.injEq] at h
          subst h
          exact hh
        · simp at h
    | cons a rest ih =>
      intro st st' h
      simp only [loop] at h
      by_cases hh : st.helpVal = some true
      · rw [if_pos hh] at h
        simp at h
      · rw [if_neg hh] at h
        rcases hs : stepTok auf auc lev a st with e | st1 <;> rw [hs] at h
        · simp at h
        · exact ih st1 st' h
  · intro U args cmd opts u r t h hr
    simp only [parseCommand] at h
    rcases hl : loop opts.allowUnknowFlag opts.allowUnknowCommand opts.levenshteinDistance
        args ⟨cmd.resetTop, [], [], none, [], none⟩ with e | out <;> rw [hl] at h
    · simp at h
    · cases out with
      | helpOut st =>
        simp only [Except.ok.injEq, Prod.mk.injEq] at h
        rw [← h.1]
        exact ⟨rfl, rfl⟩
      | finished st =>
        rcases hm : opts.mode with _ | m
        · rw [hm] at h
          simp only [Except.ok.injEq, Prod.mk.injEq] at h
          rw [← h.1] at hr
          simp at hr
        · rw [hm] at h
          cases m <;> simp only [Except.ok.injEq, Prod.mk.injEq] at h <;>
            rw [← h.1] at hr <;> simp at hr

theorem claim4_witness :
    loop false false none [lit "extra"] helpStateW = .ok (.helpOut helpStateW)
  ∧ (({ help := true } : ParseCommandResult Unit).values = none
      ∧ ({ help := true } : ParseCommandResult Unit).runners = none) :=
  ⟨claim4_help_short_circuit.1 false false none [lit "extra"] helpStateW rfl,
   claim4_help_short_circuit.2.2 Unit [lit "-h"] uintRoot {} () { help := true }
     uintRoot.resetTop (by rfl) rfl⟩

/-! ## Unknown long flags with `allowUnknowFlag` (C8) -/

/-- C8 (counterexample): with `allowUnknowFlag` enabled, an unknown `--`
token is *not* always treated as a positional argument: at the root of a
command with children and no positional recorded yet, it falls into
subcommand resolution, which (with unknown commands disallowed, the
default) aborts with an unknown-command error instead. -/
theorem claim8_counterexample :
    parseCommand (U := Unit) [lit "--bogus"] c8Root { allowUnknowFlag := true } ()
      = .error (.unknowCommand (lit "--bogus") (lit "root") none) := by rfl

/-- C8 (amended): for a `--` token whose flag name is not found (and is not
`help`), when `allowUnknownFlag` is true the parse does not raise an
unknown-flag error; the token falls through to the positional/subcommand
tail.  There it is treated as a positional argument of the current command,
*except* when no positional has been recorded yet and the command has
children: then it goes through child lookup — which can never match, since
child names cannot start with `-` — and aborts with an unknown-command
error when unknown commands are disallowed (the default), or becomes a
positional when they are allowed. -/
theorem claim8_amended :
    (∀ (auc : Bool) (lev : Option Int) (arg : Str) (st : PState),
      st.pend = none → startsWith2Dash arg = true →
      findFF st.cmd (getLogName (arg.drop 2)).1 false = none →
      stepTok true auc lev arg st
        = fallthroughTok auc lev arg
            { st with pendName := lit "--" ++ (getLogName (arg.drop 2)).1 })
  ∧ (∀ (auc : Bool) (lev : Option Int) (arg : Str) (st : PState),
      ¬ (st.strs = [] ∧ st.cmd.hasChildren = true) →
      fallthroughTok auc lev arg st = .ok { st with strs := st.strs ++ [arg] })
  ∧ (∀ (lev : Option Int) (arg : Str) (st : PState),
      st.strs = [] → st.cmd.hasChildren = true → st.cmd.child arg = none →
      fallthroughTok false lev arg st
        = .error (.unknowCommand arg st.cmd.name ((st.cmd.guess arg lev).map Cmd.name)))
  ∧ (∀ (lev : Option Int) (arg : Str) (st : PState),
      st.strs = [] → st.cmd.hasChildren = true → st.cmd.child arg = none →
      fallthroughTok true lev arg st = .ok { st with strs := st.strs ++ [arg] })
  ∧ (∀ (c : Cmd) (arg : Str),
      (∀ k ∈ c.children, startsWith1Dash k.name = false) →
      startsWith1Dash arg = true → c.child arg = none) := by
  refine ⟨?_, ?_, ?_, ?_, ?_⟩
  · intro auc lev arg st hp h2 hf
    have hne : ¬ arg = lit "-" := by
      intro he
      rw [he] at h2
      exact absurd h2 (by decide)
    simp only [stepTok, hp]
    rw [if_neg hne, if_pos h2, hf]
    simp
  · intro auc lev arg st hns
    have hg : ¬ (st.strs.isEmpty && st.cmd.hasChildren) = true := by
      intro hb
      rw [Bool.and_eq_true] at hb
      exact hns ⟨List.isEmpty_iff.mp hb.1, hb.2⟩
    simp only [fallthroughTok]
    rw [if_neg hg]
  · intro lev arg st h1 h2 h3
    simp only [fallthroughTok]
    rw [if_pos ?_, h3]
    · simp
    · simp [h1, h2]
  · intro lev arg st h1 h2 h3
    simp only [fallthroughTok]
    rw [if_pos ?_, h3]
    · simp
    · simp [h1, h2]
  · intro c arg hk ha
    rcases hy : c.child arg with _ | k
    · rfl
    · exfalso
      have hmem : k ∈ c.children := List.mem_of_find?_eq_some hy
      have hpred := List.find?_some hy
      have hname : k.name = arg := by
        simpa using hpred
      have := hk k hmem
      rw [hname] at this
      rw [this] at ha
      exact absurd ha (by simp)

theorem claim8_witness :
    stepTok true false none (lit "--bogus") ⟨c8Root.resetTop, [], [], none, [], none⟩
      = fallthroughTok false none (lit "--bogus")
          ⟨c8Root.resetTop, [], [], none,
            lit "--" ++ (getLogName ((lit "--bogus").drop 2)).1, none⟩
  ∧ fallthroughTok false none (lit "--bogus")
        ⟨c8Root.resetTop, [], [], none, lit "--bogus", none⟩
      = .error (.unknowCommand (lit "--bogus") (lit "root") none)
  ∧ c8Root.child (lit "--bogus") = none := by
  refine ⟨?_, ?_, ?_⟩
  · exact claim8_amended.1 false none (lit "--bogus") _ rfl (by decide) rfl
  · exact claim8_amended.2.2.1 none (lit "--bogus")
      ⟨c8Root.resetTop, [], [], none, lit "--bogus", none⟩ rfl rfl rfl
  · exact claim8_amended.2.2.2.2 c8Root (lit "--bogus") (by decide) (by decide)

/-! ## Equivalence of flag value syntaxes (C3) -/

theorem getLogName_split (n v : Str) (he : ¬ '=' ∈ n) :
    getLogName (n ++ '=' :: v) = (n, '=' :: v) := by
  unfold getLogName
  have hidx : (n ++ '=' :: v).findIdx? (fun c => c == '=') = some n.length := by
    induction n with
    | nil => simp [List.findIdx?_cons]
    | cons c n' ih =>
      have hc : ¬ c = '=' := fun h => he (by simp [h])
      rw [List.cons_append, List.findIdx?_cons]
      have ih' := ih (fun h => he (List.mem_cons_of_mem _ h))
      simp [hc, ih']
  rw [hidx]
  simp only [List.take_left, List.drop_left]

theorem getLogName_noeq (n : Str) (he : ¬ '=' ∈ n) : getLogName n = (n, []) := by
  unfold getLogName
  have : n.findIdx? (fun c => c == '=') = none := by
    rw [List.findIdx?_eq_none_iff]
    intro x hx
    simp only [beq_eq_false_iff_ne, ne_eq]
    intro h
    exact he (h ▸ hx)
  rw [this]

/-- C3 (counterexample): the claim quantifies over *every* value text `v`;
at `v = ""` the forms disagree: `--cc=` parses the empty string into the
flag and the parse succeeds, while the attached shorthand form (`-cv` with
empty `v`, i.e. the token `-c`) leaves the flag pending and the parse fails
with a needs-argument error — the final flag states are not identical. -/
theorem claim3_counterexample :
    (parseCommand (U := Unit) [lit "--cc="] c3Root {} ()).map
        (fun p => p.2.flags.map Flag.value_) = .ok [some (.vStr [])]
  ∧ parseCommand (U := Unit) [['-', 'c']] c3Root {} ()
      = .error (.needsArgument ['-', 'c']) :=
  ⟨by rfl, by rfl⟩

theorem loop_cons_ok (auf auc : Bool) (lev : Option Int) (arg : Str) (rest : List Str)
    (st st₁ : PState) (hh : ¬ st.helpVal = some true)
    (hs : stepTok auf auc lev arg st = .ok st₁) :
    loop auf auc lev (arg :: rest) st = loop auf auc lev rest st₁ := by
  simp only [loop]
  rw [if_neg hh, hs]

theorem loop_cons_err (auf auc : Bool) (lev : Option Int) (arg : Str) (rest : List Str)
    (st : PState) (e : ParseCommandError) (hh : ¬ st.helpVal = some true)
    (hs : stepTok auf auc lev arg st = .error e) :
    loop auf auc lev (arg :: rest) st = .error e := by
  simp only [loop]
  rw [if_neg hh, hs]

/-- C3 (amended): for a non-boolean flag with long name `fname` and short
name `x`, and every *nonempty* value text `v` that does not begin with `=`
and parses successfully, the token forms `--fname=v`, `--fname v`, `-x v`,
`-xv` and `-x=v` all produce identical parse results (in the two-token
forms the following token is consumed entirely as the value, even if it
begins with `-`); when `v` is empty or begins with `=`, the attached
shorthand form `-xv` deviates (it leaves the flag pending, resp. strips
the `=`). -/
theorem claim3_amended (cmd : Cmd) (fname : Str) (x : Char) (g g' : Flag) (v : Str)
    (hfl : findFlag (cmd.resetTop).flags fname false = some g)
    (hfs : findFlag (cmd.resetTop).flags [x] true = some g)
    (hnb : g.isBool = false)
    (hprs : g.parse v = .ok g')
    (he : ¬ '=' ∈ fname)
    (hv0 : v ≠ [])
    (hv1 : v.head? ≠ some '=')
    (hx : x ≠ '-') :
    ∀ (U : Type) (opts : ParseCommandOptions) (u : U),
      (parseCommand [lit "--" ++ fname ++ '=' :: v] cmd opts u
        = parseCommand [lit "--" ++ fname, v] cmd opts u)
    ∧ (parseCommand [lit "--" ++ fname ++ '=' :: v] cmd opts u
        = parseCommand [['-', x], v] cmd opts u)
    ∧ (parseCommand [lit "--" ++ fname ++ '=' :: v] cmd opts u
        = parseCommand ['-' :: x :: v] cmd opts u)
    ∧ (parseCommand [lit "--" ++ fname ++ '=' :: v] cmd opts u
        = parseCommand ['-' :: x :: '=' :: v] cmd opts u) := by
  intro U opts u
  rcases hvc : v with _ | ⟨c, cs⟩
  · exact absurd hvc hv0
  subst hvc
  have hc : ¬ c = '=' := by
    simpa using hv1
  have hffl : findFF cmd.resetTop fname false = some (.reg g) := by
    unfold findFF
    rw [hfl]
  have hffs : findFF cmd.resetTop [x] true = some (.reg g) := by
    unfold findFF
    rw [hfs]
  have happ : ∀ (st : PState), st.cmd = cmd.resetTop →
      applyFF st (.reg g) (c :: cs)
        = .ok { st with cmd := cmd.resetTop.withFlags (updateFlag cmd.resetTop.flags g') } := by
    intro st hcm
    simp [applyFF, hprs, hcm]
  have hfb : FFlag.isBool (.reg g) = false := hnb
  have hh0 : ¬ (⟨cmd.resetTop, [], [], none, [], none⟩ : PState).helpVal = some true := by simp
  have hhP : ∀ PN : Str,
      ¬ (⟨cmd.resetTop, [], [], some (.reg g), PN, none⟩ : PState).helpVal = some true := by
    intro PN
    simp
  -- shared dispatch computation
  have hPC : ∀ (t : List Str) (PN : Str),
      loop opts.allowUnknowFlag opts.allowUnknowCommand opts.levenshteinDistance t
          ⟨cmd.resetTop, [], [], none, [], none⟩
        = .ok (.finished ⟨cmd.resetTop.withFlags (updateFlag cmd.resetTop.flags g'),
            [], [], none, PN, none⟩) →
      parseCommand t cmd opts u
        = (match opts.mode with
           | some RunMode.all =>
             .ok ({ values := some [execSlot u
                 ⟨cmd.resetTop.withFlags (updateFlag cmd.resetTop.flags g'), []⟩] },
               cmd.resetTop.withFlags (updateFlag cmd.resetTop.flags g'))
           | some RunMode.runner =>
             .ok ({ runners :=
                 some [⟨cmd.resetTop.withFlags (updateFlag cmd.resetTop.flags g'), []⟩] },
               cmd.resetTop.withFlags (updateFlag cmd.resetTop.flags g'))
           | _ =>
             .ok ({ values := some [execSlot u
                 ⟨cmd.resetTop.withFlags (updateFlag cmd.resetTop.flags g'), []⟩] },
               cmd.resetTop.withFlags (updateFlag cmd.resetTop.flags g'))) := by
    intro t PN hl
    simp only [parseCommand]
    rw [hl]
    rcases hm : opts.mode with _ | m
    · simp [PState.liveRunners, liveChain, PState.finalRoot]
    · cases m <;> simp [PState.liveRunners, liveChain, PState.finalRoot]
  -- form 1: --fname=v
  have hsplit1 : lit "--" ++ fname ++ '=' :: c :: cs = '-' :: '-' :: (fname ++ '=' :: c :: cs) := rfl
  have S1 : stepTok opts.allowUnknowFlag opts.allowUnknowCommand opts.levenshteinDistance
      (lit "--" ++ fname ++ '=' :: c :: cs) ⟨cmd.resetTop, [], [], none, [], none⟩
      = .ok ⟨cmd.resetTop.withFlags (updateFlag cmd.resetTop.flags g'),
          [], [], none, lit "--" ++ fname, none⟩ := by
    have hne : ¬ (lit "--" ++ fname ++ '=' :: c :: cs) = lit "-" := by
      intro h
      rw [hsplit1] at h
      have hd : (lit "-" : Str) = ['-'] := rfl
      rw [hd] at h
      simp at h
    have h2d : startsWith2Dash (lit "--" ++ fname ++ '=' :: c :: cs) = true := by
      rw [hsplit1]
      simp [startsWith2Dash]
    have hdrop : (lit "--" ++ fname ++ '=' :: c :: cs).drop 2 = fname ++ '=' :: c :: cs := by
      rw [hsplit1]
      rfl
    simp only [stepTok]
    rw [if_neg hne, if_pos h2d, hdrop, getLogName_split fname (c :: cs) he]
    simp only [hffl]
    rw [happ _ rfl]
  have L1 : loop opts.allowUnknowFlag opts.allowUnknowCommand opts.levenshteinDistance
      [lit "--" ++ fname ++ '=' :: c :: cs] ⟨cmd.resetTop, [], [], none, [], none⟩
      = .ok (.finished ⟨cmd.resetTop.withFlags (updateFlag cmd.resetTop.flags g'),
          [], [], none, lit "--" ++ fname, none⟩) := by
    rw [loop_cons_ok _ _ _ _ _ _ _ hh0 S1]
    rfl
  -- form 2: --fname v
  have S2a : stepTok opts.allowUnknowFlag opts.allowUnknowCommand opts.levenshteinDistance
      (lit "--" ++ fname) ⟨cmd.resetTop, [], [], none, [], none⟩
      = .ok ⟨cmd.resetTop, [], [], some (.reg g), lit "--" ++ fname, none⟩ := by
    have hsp : lit "--" ++ fname = '-' :: '-' :: fname := rfl
    have hne : ¬ (lit "--" ++ fname) = lit "-" := by
      intro h
      rw [hsp] at h
      have hd : (lit "-" : Str) = ['-'] := rfl
      rw [hd] at h
      simp at h
    have h2d : startsWith2Dash (lit "--" ++ fname) = true := by
      rw [hsp]
      simp [startsWith2Dash]
    have hdrop : (lit "--" ++ fname).drop 2 = fname := by
      rw [hsp]
      rfl
    simp only [stepTok]
    rw [if_neg hne, if_pos h2d, hdrop, getLogName_noeq fname he]
    simp only [hffl]
    simp [hfb]
  have S2b : ∀ PN : Str,
      stepTok opts.allowUnknowFlag opts.allowUnknowCommand opts.levenshteinDistance
        (c :: cs) ⟨cmd.resetTop, [], [], some (.reg g), PN, none⟩
      = .ok ⟨cmd.resetTop.withFlags (updateFlag cmd.resetTop.flags g'),
          [], [], none, PN, none⟩ := by
    intro PN
    simp only [stepTok]
    rw [happ _ rfl]
  have L2 : loop opts.allowUnknowFlag opts.allowUnknowCommand opts.levenshteinDistance
      [lit "--" ++ fname, c :: cs] ⟨cmd.resetTop, [], [], none, [], none⟩
      = .ok (.finished ⟨cmd.resetTop.withFlags (updateFlag cmd.resetTop.flags g'),
          [], [], none, lit "--" ++ fname, none⟩) := by
    rw [loop_cons_ok _ _ _ _ _ _ _ hh0 S2a,
      loop_cons_ok _ _ _ _ _ _ _ (hhP _) (S2b _)]
    rfl
  -- shorthand forms: shared head facts
  have hne3 : ∀ t : Str, ¬ ('-' :: x :: t : Str) = lit "-" := by
    intro t h
    have hd : (lit "-" : Str) = ['-'] := rfl
    rw [hd] at h
    simp at h
  have h2d3 : ∀ t : Str, ¬ startsWith2Dash ('-' :: x :: t) = true := by
    intro t
    simp [startsWith2Dash, hx]
  have h1d3 : ∀ t : Str, startsWith1Dash ('-' :: x :: t) = true := by
    intro t
    simp [startsWith1Dash]
  -- form 3: -x v
  have S3a : stepTok opts.allowUnknowFlag opts.allowUnknowCommand opts.levenshteinDistance
      ['-', x] ⟨cmd.resetTop, [], [], none, [], none⟩
      = .ok ⟨cmd.resetTop, [], [], some (.reg g), '-' :: [x], none⟩ := by
    simp only [stepTok]
    rw [if_neg (hne3 []), if_neg (h2d3 []), if_pos (h1d3 [])]
    have htk : (((['-', x] : Str).drop 1).take 1) = [x] := rfl
    have hd2 : (['-', x] : Str).drop 2 = [] := rfl
    rw [htk, hd2]
    simp only [hffs]
    simp only [chain]
    rw [if_neg (by simp [hfb])]
  have L3 : loop opts.allowUnknowFlag opts.allowUnknowCommand opts.levenshteinDistance
      [['-', x], c :: cs] ⟨cmd.resetTop, [], [], none, [], none⟩
      = .ok (.finished ⟨cmd.resetTop.withFlags (updateFlag cmd.resetTop.flags g'),
          [], [], none, '-' :: [x], none⟩) := by
    rw [loop_cons_ok _ _ _ _ _ _ _ hh0 S3a,
      loop_cons_ok _ _ _ _ _ _ _ (hhP _) (S2b _)]
    rfl
  -- form 4: -xv
  have S4 : stepTok opts.allowUnknowFlag opts.allowUnknowCommand opts.levenshteinDistance
      ('-' :: x :: c :: cs) ⟨cmd.resetTop, [], [], none, [], none⟩
      = .ok ⟨cmd.resetTop.withFlags (updateFlag cmd.resetTop.flags g'),
          [], [], none, '-' :: [x], none⟩ := by
    simp only [stepTok]
    rw [if_neg (hne3 _), if_neg (h2d3 _), if_pos (h1d3 _)]
    have htk : ((('-' :: x :: c :: cs : Str).drop 1).take 1) = [x] := rfl
    have hd2 : ('-' :: x :: c :: cs : Str).drop 2 = c :: cs := rfl
    rw [htk, hd2]
    simp only [hffs]
    simp only [chain]
    rw [if_neg hc, if_pos hfb, happ _ rfl]
  have L4 : loop opts.allowUnknowFlag opts.allowUnknowCommand opts.levenshteinDistance
      ['-' :: x :: c :: cs] ⟨cmd.resetTop, [], [], none, [], none⟩
      = .ok (.finished ⟨cmd.resetTop.withFlags (updateFlag cmd.resetTop.flags g'),
          [], [], none, '-' :: [x], none⟩) := by
    rw [loop_cons_ok _ _ _ _ _ _ _ hh0 S4]
    rfl
  -- form 5: -x=v
  have S5 : stepTok opts.allowUnknowFlag opts.allowUnknowCommand opts.levenshteinDistance
      ('-' :: x :: '=' :: c :: cs) ⟨cmd.resetTop, [], [], none, [], none⟩
      = .ok ⟨cmd.resetTop.withFlags (updateFlag cmd.resetTop.flags g'),
          [], [], none, '-' :: [x], none⟩ := by
    simp only [stepTok]
    rw [if_neg (hne3 _), if_neg (h2d3 _), if_pos (h1d3 _)]
    have htk : ((('-' :: x :: '=' :: c :: cs : Str).drop 1).take 1) = [x] := rfl
    have hd2 : ('-' :: x :: '=' :: c :: cs : Str).drop 2 = '=' :: c :: cs := rfl
    rw [htk, hd2]
    simp only [hffs]
    simp only [chain]
    rw [if_pos trivial, happ _ rfl]
  have L5 : loop opts.allowUnknowFlag opts.allowUnknowCommand opts.levenshteinDistance
      ['-' :: x :: '=' :: c :: cs] ⟨cmd.resetTop, [], [], none, [], none⟩
      = .ok (.finished ⟨cmd.resetTop.withFlags (updateFlag cmd.resetTop.flags g'),
          [], [], none, '-' :: [x], none⟩) := by
    rw [loop_cons_ok _ _ _ _ _ _ _ hh0 S5]
    rfl
  exact ⟨by rw [hPC _ _ L1, hPC _ _ L2],
    by rw [hPC _ _ L1, hPC _ _ L3],
    by rw [hPC _ _ L1, hPC _ _ L4],
    by rw [hPC _ _ L1, hPC _ _ L5]⟩

theorem claim3_witness :
    (parseCommand (U := Unit) [lit "--" ++ lit "cc" ++ '=' :: lit "vv"] c3Root {} ()
      = parseCommand [lit "--" ++ lit "cc", lit "vv"] c3Root {} ())
  ∧ (parseCommand (U := Unit) [lit "--" ++ lit "cc" ++ '=' :: lit "vv"] c3Root {} ()
      = parseCommand [['-', 'c'], lit "vv"] c3Root {} ())
  ∧ (parseCommand (U := Unit) [lit "--" ++ lit "cc" ++ '=' :: lit "vv"] c3Root {} ()
      = parseCommand ['-' :: 'c' :: lit "vv"] c3Root {} ())
  ∧ (parseCommand (U := Unit) [lit "--" ++ lit "cc" ++ '=' :: lit "vv"] c3Root {} ()
      = parseCommand ['-' :: 'c' :: '=' :: lit "vv"] c3Root {} ()) :=
  claim3_amended c3Root (lit "cc") 'c'
    { name := lit "cc", short := lit "c", kind := .str }
    { name := lit "cc", short := lit "c", kind := .str, value_ := some (.vStr (lit "vv")) }
    (lit "vv") rfl rfl rfl rfl (by decide) (by decide) (by decide) (by decide) Unit {} ()

/-! ## Shorthand chains (C2) -/

theorem parse_one (f : Flag) (h : boolSimple f) :
    f.parse (lit "1") = .ok { f with value_ := some (.vBool true) } := by
  obtain ⟨hk, hv, hh⟩ := h
  have hb1 : parseBoolJS (lit "1") = true := by decide
  simp [Flag.parse, Flag.verify, Flag.verifyValues, Flag.builtinCheck, FlagKind.convert,
    hk, hv, hh, hb1]

theorem find?_congr {α : Type} (p q : α → Bool) (l : List α)
    (h : ∀ x ∈ l, p x = q x) : l.find? p = l.find? q := by
  induction l with
  | nil => rfl
  | cons a t ih =>
    have ha := h a (List.mem_cons_self a t)
    cases hq : q a with
    | false =>
      rw [List.find?_cons_of_neg _ (by simp [ha, hq]), List.find?_cons_of_neg _ (by simp [hq]),
        ih (fun x hx => h x (List.mem_cons_of_mem _ hx))]
    | true =>
      rw [List.find?_cons_of_pos _ (by simp [ha, hq]), List.find?_cons_of_pos _ (by simp [hq])]

theorem findFlag_mem (fs : List Flag) (n : Str) (short : Bool) (f : Flag)
    (h : findFlag fs n short = some f) : f ∈ fs := by
  unfold findFlag at h
  split at h <;> exact List.mem_of_find?_eq_some h

theorem updateFlag_map_name (fs : List Flag) (f' : Flag) :
    (updateFlag fs f').map Flag.name = fs.map Flag.name := by
  unfold updateFlag
  rw [List.map_map]
  apply List.map_congr_left
  intro g _
  simp only [Function.comp]
  split
  next hbe =>
    simp only [beq_iff_eq] at hbe
    exact hbe.symm
  next => rfl

theorem findFlag_updateFlag (fs : List Flag) (g f' : Flag) (n : Str) (short : Bool)
    (hnd : (fs.map Flag.name).Nodup) (hg : g ∈ fs)
    (hname : f'.name = g.name) (hshort : f'.short = g.short) :
    findFlag (updateFlag fs f') n short
      = (findFlag fs n short).map (fun k => if k.name = g.name then f' else k) := by
  have hinj : ∀ x ∈ fs, ∀ y ∈ fs, x.name = y.name → x = y := by
    intro x hx y hy hxy
    exact List.inj_on_of_nodup_map hnd hx hy hxy
  have huv : ∀ k : Flag,
      (if k.name == f'.name then f' else k) = if k.name = g.name then f' else k := by
    intro k
    by_cases hk : k.name = g.name
    · rw [if_pos (by simp [beq_iff_eq, hname, hk]), if_pos hk]
    · rw [if_neg (by simp [beq_iff_eq, hname, hk]), if_neg hk]
  have key : ∀ p : Flag → Bool,
      (∀ a b : Flag, a.name = b.name → a.short = b.short → p a = p b) →
      (fs.map (fun k => if k.name == f'.name then f' else k)).find? p
        = (fs.find? p).map (fun k => if k.name = g.name then f' else k) := by
    intro p hp
    rw [List.find?_map]
    have hcong : fs.find? (p ∘ fun k => if k.name == f'.name then f' else k) = fs.find? p := by
      apply find?_congr
      intro k hk
      simp only [Function.comp]
      by_cases hkn : k.name = g.name
      · have hkg : k = g := hinj k hk g hg hkn
        rw [huv k, if_pos hkn]
        subst hkg
        exact hp f' k hname hshort
      · rw [huv k, if_neg hkn]
    rw [hcong]
    rcases fs.find? p with _ | k
    · rfl
    · show some (if k.name == f'.name then f' else k)
        = some (if k.name = g.name then f' else k)
      rw [huv k]
  cases short with
  | false =>
    have h := key (fun f => f.name == n) (fun a b h1 _ => by simp only [h1])
    simpa [findFlag, updateFlag] using h
  | true =>
    have h := key (fun f => f.short == n && !f.short.isEmpty) (fun a b _ h2 => by simp only [h2])
    simpa [findFlag, updateFlag] using h

/-- One boolean link of a shorthand chain: a simple boolean flag with a
nonempty, non-`=` remainder is parsed with the literal `"1"`, and the chain
re-enters with the next character resolved against the updated registry
(aborting with an unknown-shorthand error naming the character and the full
token when it does not resolve). -/
theorem chainBoolsStep (arg fname : Str) (c : Char) (cs : Str) (st : PState) (f0 : Flag)
    (hb : boolSimple f0) (hc : ¬ c = '=') :
    chain arg (.reg f0) fname (c :: cs) st
      = (match findFF (st.cmd.withFlags (updateFlag st.cmd.flags
            { f0 with value_ := some (.vBool true) })) [c] true with
         | none => .error (.unknowShorthand [c] arg)
         | some ff2 => chain arg ff2 ('-' :: [c]) cs
             { st with cmd := st.cmd.withFlags (updateFlag st.cmd.flags
                 { f0 with value_ := some (.vBool true) }) }) := by
  have hib : ¬ FFlag.isBool (.reg f0) = false := by
    simp [FFlag.isBool, Flag.isBool, hb.1]
  have hap : applyFF st (.reg f0) (lit "1")
      = .ok { st with cmd := st.cmd.withFlags (updateFlag st.cmd.flags
          { f0 with value_ := some (.vBool true) }) } := by
    simp [applyFF, parse_one f0 hb]
  simp only [chain]
  rw [if_neg hc, if_neg hib, hap]

theorem lastFName_cons (fname : Str) (c : Char) (cs : List Char) :
    lastFName fname (c :: cs) = lastFName ['-', c] cs := by
  cases cs with
  | nil => simp [lastFName]
  | cons y ys =>
    unfold lastFName
    rw [List.getLast?_cons_cons]
    rcases h : (y :: ys).getLast? with _ | z
    · simp [List.getLast?_eq_none_iff] at h
    · rfl

theorem withFlags_withFlags (c : Cmd) (a b : List Flag) :
    (c.withFlags a).withFlags b = c.withFlags b := by
  cases c
  rfl

theorem withFlags_flags (c : Cmd) (a : List Flag) : (c.withFlags a).flags = a := by
  cases c
  rfl

/-- An all-boolean shorthand chain sets every linked flag to `true`,
left to right (`-abc` = three boolean flags). -/
theorem chain_all_bools (arg : Str) :
    ∀ (cs : List Char) (st : PState) (f0 : Flag) (fname : Str),
      (st.cmd.flags.map Flag.name).Nodup →
      boolSimple f0 → f0 ∈ st.cmd.flags →
      (∀ b ∈ cs, ¬ b = '=' ∧
        ∃ f, findFlag st.cmd.flags [b] true = some f ∧ boolSimple f) →
      chain arg (.reg f0) fname cs st
        = .ok { st with
            cmd := st.cmd.withFlags (setBoolsByShort
              (updateFlag st.cmd.flags { f0 with value_ := some (.vBool true) }) cs),
            pend := none,
            pendName := lastFName fname cs } := by
  intro cs
  induction cs with
  | nil =>
    intro st f0 fname hnd hb hmem hcs
    have hib : FFlag.isBool (.reg f0) = true := by
      simp [FFlag.isBool, Flag.isBool, hb.1]
    have hap : applyFF st (.reg f0) (lit "1")
        = .ok { st with cmd := st.cmd.withFlags (updateFlag st.cmd.flags
            { f0 with value_ := some (.vBool true) }) } := by
      simp [applyFF, parse_one f0 hb]
    simp only [chain]
    rw [if_pos hib, hap]
    rfl
  | cons c cs' ih =>
    intro st f0 fname hnd hb hmem hcs
    obtain ⟨hcne, fc, hfc, hbc⟩ := hcs c (List.mem_cons_self c cs')
    have hstep := chainBoolsStep arg fname c cs' st f0 hb hcne
    rw [hstep]
    set f0' : Flag := { f0 with value_ := some (.vBool true) } with hf0'
    set fs1 : List Flag := updateFlag st.cmd.flags f0' with hfs1
    set fc' : Flag := if fc.name = f0.name then f0' else fc with hfcd
    have htr : ∀ (b : Char),
        findFlag fs1 [b] true
          = (findFlag st.cmd.flags [b] true).map
              (fun k => if k.name = f0.name then f0' else k) := by
      intro b
      exact findFlag_updateFlag st.cmd.flags f0 f0' [b] true hnd hmem rfl rfl
    have hfc1 : findFlag fs1 [c] true = some fc' := by
      rw [htr c, hfc]
      rfl
    have hbc1 : boolSimple fc' := by
      rw [hfcd]
      by_cases hnc : fc.name = f0.name
      · rw [if_pos hnc]
        exact ⟨hb.1, hb.2.1, hb.2.2⟩
      · rw [if_neg hnc]
        exact hbc
    have hff1 : findFF (st.cmd.withFlags fs1) [c] true = some (.reg fc') := by
      unfold findFF
      rw [withFlags_flags, hfc1]
    rw [hff1]
    dsimp only
    have hnd1 : (fs1.map Flag.name).Nodup := by
      rw [hfs1, updateFlag_map_name]
      exact hnd
    have hst1 : ({ st with cmd := st.cmd.withFlags fs1 } : PState).cmd.flags = fs1 :=
      withFlags_flags _ _
    have ihe := ih { st with cmd := st.cmd.withFlags fs1 } fc' ('-' :: [c])
      (by rw [hst1]; exact hnd1)
      hbc1
      (by
        rw [hst1]
        exact findFlag_mem _ _ _ _ hfc1)
      (by
        intro b hbmem
        obtain ⟨hbne, fb, hfb, hbb⟩ := hcs b (List.mem_cons_of_mem _ hbmem)
        refine ⟨hbne, (if fb.name = f0.name then f0' else fb), ?_, ?_⟩
        · rw [hst1, htr b, hfb]
          rfl
        · by_cases hnb : fb.name = f0.name
          · rw [if_pos hnb]
            exact ⟨hb.1, hb.2.1, hb.2.2⟩
          · rw [if_neg hnb]
            exact hbb)
    rw [ihe]
    have hsb : setBoolByShort fs1 c
        = updateFlag fs1 { fc' with value_ := some (.vBool true) } := by
      unfold setBoolByShort
      rw [hfc1]
    have hflags : setBoolsByShort fs1 (c :: cs')
        = setBoolsByShort (updateFlag fs1 { fc' with value_ := some (.vBool true) }) cs' := by
      unfold setBoolsByShort
      rw [List.foldl_cons]
      show setBoolsByShort (setBoolByShort fs1 c) cs' = _
      rw [hsb]
      rfl
    dsimp only
    rw [withFlags_withFlags, withFlags_flags, ← hflags, lastFName_cons]

/-- C2 (counterexample): in the chain `-ab=0` (with `a`, `b` boolean) the
boolean flag `b` is *not* parsed with the literal `"1"`: the `=`-step parses
it with `"0"`, storing `false`; the claim's algorithm ("each boolean flag in
the chain is parsed with the literal text 1", with `=` handling reserved to
the first non-boolean flag) predicts `b = true` or an abort, never
`b = false`. -/
theorem claim2_counterexample :
    (parseCommand (U := Unit) [lit "-ab=0"] c2Root {} ()).map
        (fun p => p.2.flags.map Flag.value_)
      = .ok [some (.vBool true), some (.vBool false), none]
  ∧ parseBoolJS (lit "1") = true
  ∧ parseBoolJS (lit "0") = false :=
  ⟨by rfl, by decide, by decide⟩

/-- C2 (amended): shorthand tokens are resolved character by character, left
to right: (a) a `-d…` token resolves its first character against the current
registry (help for `h`), aborting with a flag error naming the character and
the whole token when unknown; (b) a simple boolean flag in the chain whose
remaining text is nonempty and does not start with `=` is parsed with the
literal `"1"` and the chain re-enters on the next character resolved against
the updated registry (unknown characters abort naming the character and the
token); (c) a flag — boolean or not — whose remaining text starts with `=`
consumes the text after `=` and the chain ends; (d) a non-boolean flag with
nonempty remaining text (no `=`) consumes the entire remainder; (e) a
non-boolean flag with empty remainder becomes pending on the next token;
(f) resolving the help flag mid-chain stops the chain immediately after
setting it, leaving the rest of the token unprocessed; (g) an all-boolean
chain sets every linked flag to true; concrete instances: `-abcVALUE`,
the mid-chain unknown `-abzq`, and the mid-chain help `-ahbq`. -/
theorem claim2_amended :
    (∀ (auf auc : Bool) (lev : Option Int) (d : Char) (s : Str) (st : PState),
      st.pend = none → ¬ d = '-' →
      stepTok auf auc lev ('-' :: d :: s) st
        = (match findFF st.cmd [d] true with
           | some ff => chain ('-' :: d :: s) ff ('-' :: [d]) s { st with pendName := '-' :: [d] }
           | none =>
             if auf = false then .error (.unknowShorthand [d] ('-' :: d :: s))
             else fallthroughTok auc lev ('-' :: d :: s) { st with pendName := '-' :: [d] }))
  ∧ (∀ (arg fname : Str) (c : Char) (cs : Str) (st : PState) (f0 : Flag),
      boolSimple f0 → ¬ c = '=' →
      chain arg (.reg f0) fname (c :: cs) st
        = (match findFF (st.cmd.withFlags (updateFlag st.cmd.flags
              { f0 with value_ := some (.vBool true) })) [c] true with
           | none => .error (.unknowShorthand [c] arg)
           | some ff2 => chain arg ff2 ('-' :: [c]) cs
               { st with cmd := st.cmd.withFlags (updateFlag st.cmd.flags
                   { f0 with value_ := some (.vBool true) }) }))
  ∧ (∀ (arg fname cs : Str) (st : PState) (ff : FFlag),
      chain arg ff fname ('=' :: cs) st
        = (match applyFF st ff cs with
           | .error e => .error (.invalidArg arg cs fname e)
           | .ok st' => .ok { st' with pend := none, pendName := fname }))
  ∧ (∀ (arg fname : Str) (c : Char) (cs : Str) (st : PState) (ff : FFlag),
      ff.isBool = false → ¬ c = '=' →
      chain arg ff fname (c :: cs) st
        = (match applyFF st ff (c :: cs) with
           | .error e => .error (.invalidArg arg (c :: cs) fname e)
           | .ok st' => .ok { st' with pend := none, pendName := fname }))
  ∧ (∀ (arg fname : Str) (st : PState) (ff : FFlag), ff.isBool = false →
      chain arg ff fname [] st = .ok { st with pend := some ff, pendName := fname })
  ∧ (∀ (arg fname : Str) (c : Char) (cs : Str) (st : PState), ¬ c = '=' →
      chain arg .helpF fname (c :: cs) st
        = .ok { st with helpVal := some true, pend := some FFlag.helpF, pendName := fname })
  ∧ (∀ (arg : Str) (cs : List Char) (st : PState) (f0 : Flag) (fname : Str),
      (st.cmd.flags.map Flag.name).Nodup →
      boolSimple f0 → f0 ∈ st.cmd.flags →
      (∀ b ∈ cs, ¬ b = '=' ∧
        ∃ f, findFlag st.cmd.flags [b] true = some f ∧ boolSimple f) →
      chain arg (.reg f0) fname cs st
        = .ok { st with
            cmd := st.cmd.withFlags (setBoolsByShort
              (updateFlag st.cmd.flags { f0 with value_ := some (.vBool true) }) cs),
            pend := none,
            pendName := lastFName fname cs })
  ∧ ((parseCommand (U := Unit) [lit "-abcVALUE"] c2Root {} ()).map
        (fun p => p.2.flags.map Flag.value_)
      = .ok [some (.vBool true), some (.vBool true), some (.vStr (lit "VALUE"))])
  ∧ (parseCommand (U := Unit) [lit "-abzq"] c2Root {} ()
      = .error (.unknowShorthand (lit "z") (lit "-abzq")))
  ∧ ((parseCommand (U := Unit) [lit "-ahbq"] c2Root {} ()).map
        (fun p => (p.1.help, p.2.flags.map Flag.value_))
      = .ok (true, [some (.vBool true), none, none])) := by
  refine ⟨?_, ?_, ?_, ?_, ?_, ?_, ?_, by rfl, by rfl, by rfl⟩
  · intro auf auc lev d s st hp hd
    have hne : ¬ ('-' :: d :: s : Str) = lit "-" := by
      intro h
      have hd1 : (lit "-" : Str) = ['-'] := rfl
      rw [hd1] at h
      simp at h
    have h2d : ¬ startsWith2Dash ('-' :: d :: s) = true := by
      simp [startsWith2Dash, hd]
    have h1d : startsWith1Dash ('-' :: d :: s) = true := by
      simp [startsWith1Dash]
    have htk : ((('-' :: d :: s : Str)).drop 1).take 1 = [d] := rfl
    have hd2 : ('-' :: d :: s : Str).drop 2 = s := rfl
    simp only [stepTok, hp]
    rw [if_neg hne, if_neg h2d, if_pos h1d, htk, hd2]
  · intro arg fname c cs st f0 hb hc
    exact chainBoolsStep arg fname c cs st f0 hb hc
  · intro arg fname cs st ff
    simp only [chain]
    rw [if_pos trivial]
  · intro arg fname c cs st ff hbf hc
    simp only [chain]
    rw [if_neg hc, if_pos hbf]
  · intro arg fname st ff hbf
    simp only [chain]
    rw [if_neg (by simp [hbf])]
  · intro arg fname c cs st hc
    have hap : applyFF st .helpF (lit "1") = .ok { st with helpVal := some true } := by
      simp [applyFF]
      decide
    simp only [chain]
    rw [if_neg hc, if_neg (by simp [FFlag.isBool]), hap]
  · intro arg cs st f0 fname hnd hb hmem hcs
    exact chain_all_bools arg cs st f0 fname hnd hb hmem hcs

theorem claim2_witness :
    stepTok false false none ('-' :: 'a' :: lit "b") ⟨c2Root, [], [], none, [], none⟩
      = (match findFF c2Root [lit "a"].head! true with
         | some ff => chain ('-' :: 'a' :: lit "b") ff ('-' :: ['a']) (lit "b")
             ⟨c2Root, [], [], none, '-' :: ['a'], none⟩
         | none =>
           if False then .error (.unknowShorthand ['a'] ('-' :: 'a' :: lit "b"))
           else fallthroughTok false none ('-' :: 'a' :: lit "b")
               ⟨c2Root, [], [], none, '-' :: ['a'], none⟩)
  ∧ chain (lit "-ab") (.reg { name := lit "aa", short := lit "a", kind := .bool })
      ('-' :: ['a']) (lit "b") ⟨c2Root, [], [], none, '-' :: ['a'], none⟩
      = .ok { (⟨c2Root, [], [], none, '-' :: ['a'], none⟩ : PState) with
          cmd := c2Root.withFlags (setBoolsByShort
            (updateFlag c2Root.flags
              { name := lit "aa", short := lit "a", kind := .bool,
                value_ := some (.vBool true) }) (lit "b")),
          pend := none,
          pendName := lastFName ('-' :: ['a']) (lit "b") } := by
  constructor
  · exact claim2_amended.1 false false none 'a' (lit "b")
      ⟨c2Root, [], [], none, [], none⟩ rfl (by decide)
  · exact claim2_amended.2.2.2.2.2.2.1 (lit "-ab") (lit "b")
      ⟨c2Root, [], [], none, '-' :: ['a'], none⟩
      { name := lit "aa", short := lit "a", kind := .bool } ('-' :: ['a'])
      (by decide) ⟨rfl, rfl, rfl⟩ (by simp [c2Root, Cmd.flags])
      (by
        intro b hbmem
        have hb : b = 'b' := by
          rw [show (lit "b" : Str) = ['b'] from rfl] at hbmem
          simpa using hbmem
        subst hb
        exact ⟨by decide,
          { name := lit "bb", short := lit "b", kind := .bool }, rfl, rfl, rfl, rfl⟩)

/-! ## Dispatch over the matched path (C1) -/

theorem withFlags_name (c : Cmd) (a : List Flag) : (c.withFlags a).name = c.name := by
  cases c
  rfl

theorem withFlags_children (c : Cmd) (a : List Flag) : (c.withFlags a).children = c.children := by
  cases c
  rfl

theorem withFlags_hasRun (c : Cmd) (a : List Flag) : (c.withFlags a).hasRun = c.hasRun := by
  cases c
  rfl

theorem resetTop_name (c : Cmd) : c.resetTop.name = c.name := withFlags_name _ _

theorem resetTop_children (c : Cmd) : c.resetTop.children = c.children := withFlags_children _ _

theorem resetTop_hasRun (c : Cmd) : c.resetTop.hasRun = c.hasRun := withFlags_hasRun _ _

/-- Fields of the state that one `flag.parse` write-back can never touch. -/
theorem applyFF_ok (st : PState) (ff : FFlag) (v : Str) (st' : PState)
    (h : applyFF st ff v = .ok st') :
    st'.done = st.done ∧ st'.strs = st.strs ∧ st'.pend = st.pend ∧ st'.pendName = st.pendName
    ∧ st'.cmd.name = st.cmd.name ∧ st'.cmd.children = st.cmd.children
    ∧ st'.cmd.hasRun = st.cmd.hasRun := by
  cases ff with
  | helpF =>
    simp only [applyFF, Except.ok.injEq] at h
    subst h
    exact ⟨rfl, rfl, rfl, rfl, rfl, rfl, rfl⟩
  | reg f =>
    simp only [applyFF] at h
    rcases hp : f.parse v with e | f' <;> rw [hp] at h
    · simp at h
    · simp only [Except.ok.injEq] at h
      subst h
      exact ⟨rfl, rfl, rfl, rfl, withFlags_name _ _, withFlags_children _ _,
        withFlags_hasRun _ _⟩

/-- Fields of the state a whole shorthand chain can never touch. -/
theorem chain_ok (arg : Str) :
    ∀ (s : Str) (ff : FFlag) (fname : Str) (st st' : PState),
      chain arg ff fname s st = .ok st' →
      st'.done = st.done ∧ st'.strs = st.strs
      ∧ st'.cmd.name = st.cmd.name ∧ st'.cmd.children = st.cmd.children
      ∧ st'.cmd.hasRun = st.cmd.hasRun := by
  intro s
  induction s with
  | nil =>
    intro ff fname st st' h
    simp only [chain] at h
    split at h
    · rcases hp : applyFF st ff (lit "1") with e | st1 <;> rw [hp] at h
      · simp at h
      · simp only [Except.ok.injEq] at h
        subst h
        obtain ⟨h1, h2, _, _, h5, h6, h7⟩ := applyFF_ok st ff (lit "1") st1 hp
        exact ⟨h1, h2, h5, h6, h7⟩
    · simp only [Except.ok.injEq] at h
      subst h
      exact ⟨rfl, rfl, rfl, rfl, rfl⟩
  | cons c cs ih =>
    intro ff fname st st' h
    simp only [chain] at h
    split at h
    · rcases hp : applyFF st ff cs with e | st1 <;> rw [hp] at h
      · simp at h
      · simp only [Except.ok.injEq] at h
        subst h
        obtain ⟨h1, h2, _, _, h5, h6, h7⟩ := applyFF_ok st ff cs st1 hp
        exact ⟨h1, h2, h5, h6, h7⟩
    · split at h
      · rcases hp : applyFF st ff (c :: cs) with e | st1 <;> rw [hp] at h
        · simp at h
        · simp only [Except.ok.injEq] at h
          subst h
          obtain ⟨h1, h2, _, _, h5, h6, h7⟩ := applyFF_ok st ff (c :: cs) st1 hp
          exact ⟨h1, h2, h5, h6, h7⟩
      · rcases hp : applyFF st ff (lit "1") with e | st1 <;> rw [hp] at h
        · simp at h
        · obtain ⟨h1, h2, _, _, h5, h6, h7⟩ := applyFF_ok st ff (lit "1") st1 hp
          dsimp only at h
          rcases ff with f | _
          · dsimp only at h
            rcases hff : findFF st1.cmd [c] true with _ | ff2 <;> rw [hff] at h
            · simp at h
            · dsimp only at h
              obtain ⟨g1, g2, g5, g6, g7⟩ := ih ff2 ('-' :: [c]) st1 st' h
              exact ⟨g1.trans h1, g2.trans h2, g5.trans h5, g6.trans h6, g7.trans h7⟩
          · dsimp only at h
            simp only [Except.ok.injEq] at h
            subst h
            exact ⟨h1, h2, h5, h6, h7⟩

theorem nextName_congr (rs : List Runner) (c c' : Cmd) (h : c.name = c'.name) :
    nextName rs c = nextName rs c' := by
  cases rs <;> simp [nextName, h]

theorem runnerChain_congr (rs : List Runner) (c c' : Cmd) (h : c.name = c'.name) :
    runnerChain rs c ↔ runnerChain rs c' := by
  induction rs with
  | nil => simp [runnerChain]
  | cons r rs ih =>
    simp only [runnerChain]
    rw [ih, nextName_congr rs c c' h]

theorem nextName_append (rs : List Runner) (r : Runner) (cur : Cmd) :
    nextName (rs ++ [r]) cur = nextName rs r.cmd := by
  cases rs <;> rfl

theorem runnerChain_append (rs : List Runner) (r : Runner) (cur : Cmd) :
    runnerChain (rs ++ [r]) cur
      ↔ runnerChain rs r.cmd ∧ cur.name ∈ r.cmd.children.map Cmd.name := by
  induction rs with
  | nil => simp [runnerChain, nextName]
  | cons a rs ih =>
    show (nextName (rs ++ [r]) cur ∈ a.cmd.children.map Cmd.name
        ∧ runnerChain (rs ++ [r]) cur)
      ↔ (nextName rs r.cmd ∈ a.cmd.children.map Cmd.name ∧ runnerChain rs r.cmd)
        ∧ cur.name ∈ r.cmd.children.map Cmd.name
    rw [nextName_append, ih, and_assoc]

theorem fallthroughTok_chainInv (auc : Bool) (lev : Option Int) (arg : Str) (st st' : PState)
    (h : fallthroughTok auc lev arg st = .ok st') (hinv : runnerChain st.done st.cmd) :
    runnerChain st'.done st'.cmd ∧ headName st' = headName st := by
  unfold fallthroughTok at h
  split at h
  · rcases hc : st.cmd.child arg with _ | found
    · rw [hc] at h
      dsimp only at h
      split at h
      · simp at h
      · simp only [Except.ok.injEq] at h
        subst h
        exact ⟨hinv, rfl⟩
    · rw [hc] at h
      dsimp only at h
      simp only [Except.ok.injEq] at h
      subst h
      constructor
      · show runnerChain (st.done ++ [⟨st.cmd, st.strs⟩]) found.resetTop
        rw [runnerChain_append]
        refine ⟨hinv, ?_⟩
        rw [resetTop_name]
        have hmem : found ∈ st.cmd.children :=
          List.mem_of_find?_eq_some (by simpa [Cmd.child] using hc)
        exact List.mem_map_of_mem Cmd.name hmem
      · show nextName (st.done ++ [⟨st.cmd, st.strs⟩]) found.resetTop = nextName st.done st.cmd
        rw [nextName_append]
  · simp only [Except.ok.injEq] at h
    subst h
    exact ⟨hinv, rfl⟩

/-- One loop iteration preserves the root-to-leaf chain and the path root. -/
theorem stepTok_chainInv (auf auc : Bool) (lev : Option Int) (arg : Str) (st st' : PState)
    (h : stepTok auf auc lev arg st = .ok st') (hinv : runnerChain st.done st.cmd) :
    runnerChain st'.done st'.cmd ∧ headName st' = headName st := by
  have base : ∀ s₁ : PState, s₁.done = st.done → s₁.cmd.name = st.cmd.name →
      st' = s₁ → runnerChain st'.done st'.cmd ∧ headName st' = headName st := by
    intro s₁ hd hn he
    subst he
    constructor
    · rw [hd]
      exact (runnerChain_congr st.done st'.cmd st.cmd hn).mpr hinv
    · show nextName st'.done st'.cmd = nextName st.done st.cmd
      rw [hd, nextName_congr st.done st'.cmd st.cmd hn]
  simp only [stepTok] at h
  split at h
  next ff hpend =>
    split at h
    next e heq => simp at h
    next st1 heq =>
      simp only [Except.ok.injEq] at h
      obtain ⟨h1, _, _, _, h5, _, _⟩ := applyFF_ok st ff arg st1 heq
      refine base _ ?_ ?_ h.symm
      · exact h1
      · exact h5
  next hpend =>
    split at h
    · simp only [Except.ok.injEq] at h
      refine base _ ?_ ?_ h.symm <;> rfl
    · split at h
      · split at h
        next ff hff =>
          split at h
          next v heq2 =>
            split at h
            next e happ => simp at h
            next st1 happ =>
              simp only [Except.ok.injEq] at h
              obtain ⟨h1, _, _, _, h5, _, _⟩ := applyFF_ok st ff v st1 happ
              refine base _ ?_ ?_ h.symm
              · exact h1
              · exact h5
          next hne =>
            split at h
            · split at h
              next e happ => simp at h
              next st1 happ =>
                simp only [Except.ok.injEq] at h
                obtain ⟨h1, _, _, _, h5, _, _⟩ := applyFF_ok st ff (lit "1") st1 happ
                refine base _ ?_ ?_ h.symm
                · exact h1
                · exact h5
            · simp only [Except.ok.injEq] at h
              refine base _ ?_ ?_ h.symm <;> rfl
        next hff =>
          split at h
          · simp at h
          · obtain ⟨hr, hh⟩ := fallthroughTok_chainInv auc lev arg _ st' h hinv
            exact ⟨hr, hh⟩
      · split at h
        · split at h
          next ff hff =>
            obtain ⟨h1, h2, h5, h6, h7⟩ := chain_ok arg _ ff _ _ st' h
            constructor
            · rw [h1]
              exact (runnerChain_congr st.done st'.cmd st.cmd h5).mpr hinv
            · show nextName st'.done st'.cmd = nextName st.done st.cmd
              rw [h1, nextName_congr st.done st'.cmd st.cmd h5]
          next hff =>
            split at h
            · simp at h
            · obtain ⟨hr, hh⟩ := fallthroughTok_chainInv auc lev arg _ st' h hinv
              exact ⟨hr, hh⟩
        · obtain ⟨hr, hh⟩ := fallthroughTok_chainInv auc lev arg _ st' h hinv
          exact ⟨hr, hh⟩

theorem loop_chainInv (auf auc : Bool) (lev : Option Int) :
    ∀ (args : List Str) (st : PState) (out : LoopOut),
      loop auf auc lev args st = .ok out → runnerChain st.done st.cmd →
      (∀ st', out = .helpOut st' →
        runnerChain st'.done st'.cmd ∧ headName st' = headName st)
    ∧ (∀ st', out = .finished st' →
        runnerChain st'.done st'.cmd ∧ headName st' = headName st) := by
  intro args
  induction args with
  | nil =>
    intro st out h hinv
    simp only [loop, endCheck] at h
    split at h
    · simp only [Except.ok.injEq] at h
      subst h
      constructor
      · intro st' he
        cases he
        exact ⟨hinv, rfl⟩
      · intro st' he
        cases he
    · split at h
      · simp at h
      · simp only [Except.ok.injEq] at h
        subst h
        constructor
        · intro st' he
          cases he
        · intro st' he
          cases he
          exact ⟨hinv, rfl⟩
  | cons arg rest ih =>
    intro st out h hinv
    simp only [loop] at h
    split at h
    · simp only [Except.ok.injEq] at h
      subst h
      constructor
      · intro st' he
        cases he
        exact ⟨hinv, rfl⟩
      · intro st' he
        cases he
    · split at h
      next e hs => simp at h
      next st1 hs =>
        obtain ⟨hr1, hh1⟩ := stepTok_chainInv auf auc lev arg st st1 hs hinv
        obtain ⟨ih1, ih2⟩ := ih st1 out h hr1
        constructor
        · intro st' he
          obtain ⟨a, b⟩ := ih1 st' he
          exact ⟨a, b.trans hh1⟩
        · intro st' he
          obtain ⟨a, b⟩ := ih2 st' he
          exact ⟨a, b.trans hh1⟩

theorem replaceChildByName_children (p c : Cmd) :
    (p.replaceChildByName c).children
      = p.children.map (fun k => if k.name == c.name then c else k) := rfl

theorem liveChain_ne_nil (rs : List Runner) (leaf : Runner) : liveChain rs leaf ≠ [] := by
  cases rs with
  | nil => simp [liveChain]
  | cons r rs =>
    simp only [liveChain]
    split <;> simp

theorem liveChain_getLast (rs : List Runner) (leaf : Runner) :
    (liveChain rs leaf).getLast? = some leaf := by
  induction rs with
  | nil => rfl
  | cons r rs ih =>
    simp only [liveChain]
    split
    next heq => exact absurd heq (liveChain_ne_nil rs leaf)
    next c cs heq =>
      rw [List.getLast?_cons_cons]
      rw [heq] at ih
      exact ih

theorem liveChain_args (rs : List Runner) (leaf : Runner) :
    (liveChain rs leaf).map Runner.args = rs.map Runner.args ++ [leaf.args] := by
  induction rs with
  | nil => rfl
  | cons r rs ih =>
    simp only [liveChain]
    split
    next heq => exact absurd heq (liveChain_ne_nil rs leaf)
    next c cs heq =>
      rw [heq] at ih
      rw [List.map_cons, ih, List.map_cons, List.cons_append]

theorem liveChain_spec (leaf : Runner) :
    ∀ rs : List Runner, runnerChain rs leaf.cmd →
      ∃ hd tl, liveChain rs leaf = hd :: tl
        ∧ hd.cmd.name = nextName rs leaf.cmd
        ∧ chainLive (hd :: tl) := by
  intro rs
  induction rs with
  | nil =>
    intro _
    exact ⟨leaf, [], rfl, rfl, trivial⟩
  | cons r rs ih =>
    intro hch
    obtain ⟨hmem, hch2⟩ := hch
    obtain ⟨hd, tl, hlc, hname, hcl⟩ := ih hch2
    refine ⟨⟨r.cmd.replaceChildByName hd.cmd, r.args⟩, hd :: tl, ?_, rfl, ?_, hcl⟩
    · simp only [liveChain, hlc]
    · show hd.cmd ∈ (r.cmd.replaceChildByName hd.cmd).children
      rw [replaceChildByName_children]
      obtain ⟨k, hk, hkname⟩ := List.mem_map.mp hmem
      have hbe : (k.name == hd.cmd.name) = true := beq_iff_eq.mpr (hkname.trans hname.symm)
      have hmm := List.mem_map_of_mem (fun k => if k.name == hd.cmd.name then hd.cmd else k) hk
      have hmm2 : (if (k.name == hd.cmd.name) = true then hd.cmd else k)
          ∈ List.map (fun k => if k.name == hd.cmd.name then hd.cmd else k) r.cmd.children := hmm
      rw [if_pos hbe] at hmm2
      exact hmm2

/-- C1: for every argument list that parses without error and without
triggering help, dispatch follows the mode: the matched path is rebuilt as a
root-to-leaf chain of runners (head named after the root, each later runner's
command a child of the previous one's, last runner the innermost command with
its own positionals); mode `all` returns `values` with one `execSlot` per path
command in path order, mode `runner` returns the runner list itself and no
values, mode `last`/default returns only the innermost command's slot; a
command without an executable contributes `none` (undefined) rather than an
error, and an executed command receives its own args, the userdata and itself. -/
theorem claim1_dispatch_modes {U : Type} (u : U) (args : List Str) (root : Cmd)
    (opts : ParseCommandOptions) (res : ParseCommandResult U) (rootFin : Cmd)
    (h : parseCommand args root opts u = .ok (res, rootFin)) (hh : res.help = false) :
    dispatchConclusion u root opts res rootFin := by
  simp only [parseCommand] at h
  rcases hl : loop opts.allowUnknowFlag opts.allowUnknowCommand opts.levenshteinDistance args
      ⟨root.resetTop, [], [], none, [], none⟩ with e | out
  · rw [hl] at h
    simp at h
  · rcases out with st | st
    · rw [hl] at h
      dsimp only at h
      simp only [Except.ok.injEq, Prod.mk.injEq] at h
      rw [← h.1] at hh
      exact Bool.noConfusion hh
    · rw [hl] at h
      dsimp only at h
      have hinv := loop_chainInv opts.allowUnknowFlag opts.allowUnknowCommand
        opts.levenshteinDistance args ⟨root.resetTop, [], [], none, [], none⟩
        (.finished st) hl True.intro
      obtain ⟨-, hfin2⟩ := hinv
      obtain ⟨hrc, hhead⟩ := hfin2 st rfl
      have hroot : nextName st.done st.cmd = root.name := by
        have h2 : headName st = root.resetTop.name := hhead
        rw [resetTop_name] at h2
        exact h2
      obtain ⟨hd, tl, hlc, hname, hcl⟩ := liveChain_spec ⟨st.cmd, st.strs⟩ st.done hrc
      have hlr : st.liveRunners = hd :: tl := hlc
      have hnd : hd.cmd.name = root.name := hname.trans hroot
      have hlast : (hd :: tl).getLast? = some ⟨st.cmd, st.strs⟩ := by
        rw [← hlc]
        exact liveChain_getLast st.done ⟨st.cmd, st.strs⟩
      have hargs : (hd :: tl).map Runner.args = st.done.map Runner.args ++ [st.strs] := by
        rw [← hlc]
        exact liveChain_args st.done ⟨st.cmd, st.strs⟩
      have hfr : st.finalRoot = hd.cmd := by
        unfold PState.finalRoot
        rw [hlr]
        rfl
      rcases hm : opts.mode with _ | m
      · rw [hm] at h
        dsimp only at h
        simp only [Except.ok.injEq, Prod.mk.injEq] at h
        obtain ⟨hres, hfe⟩ := h
        refine ⟨st, hd, tl, hlr, hnd, ?_, hcl, hlast, hargs, ?_, ?_, ?_, ?_, ?_⟩
        · rw [← hfe, hfr]
        · intro hx
          rw [hm] at hx
          exact Option.noConfusion hx
        · intro hx
          rw [hm] at hx
          exact Option.noConfusion hx
        · intro _
          exact hres.symm
        · intro r hr
          simp [execSlot, hr]
        · intro r hr
          simp [execSlot, hr]
      · rcases m with _ | _ | _
        · rw [hm] at h
          dsimp only at h
          simp only [Except.ok.injEq, Prod.mk.injEq] at h
          obtain ⟨hres, hfe⟩ := h
          refine ⟨st, hd, tl, hlr, hnd, ?_, hcl, hlast, hargs, ?_, ?_, ?_, ?_, ?_⟩
          · rw [← hfe, hfr]
          · intro _
            rw [← hres, hlr]
          · intro hx
            rw [hm] at hx
            exact absurd hx (by decide)
          · intro hx
            rcases hx with hx | hx <;> rw [hm] at hx
            · exact absurd hx (by decide)
            · exact absurd hx (by decide)
          · intro r hr
            simp [execSlot, hr]
          · intro r hr
            simp [execSlot, hr]
        · rw [hm] at h
          dsimp only at h
          simp only [Except.ok.injEq, Prod.mk.injEq] at h
          obtain ⟨hres, hfe⟩ := h
          refine ⟨st, hd, tl, hlr, hnd, ?_, hcl, hlast, hargs, ?_, ?_, ?_, ?_, ?_⟩
          · rw [← hfe, hfr]
          · intro hx
            rw [hm] at hx
            exact absurd hx (by decide)
          · intro hx
            rw [hm] at hx
            exact absurd hx (by decide)
          · intro _
            exact hres.symm
          · intro r hr
            simp [execSlot, hr]
          · intro r hr
            simp [execSlot, hr]
        · rw [hm] at h
          dsimp only at h
          simp only [Except.ok.injEq, Prod.mk.injEq] at h
          obtain ⟨hres, hfe⟩ := h
          refine ⟨st, hd, tl, hlr, hnd, ?_, hcl, hlast, hargs, ?_, ?_, ?_, ?_, ?_⟩
          · rw [← hfe, hfr]
          · intro hx
            rw [hm] at hx
            exact absurd hx (by decide)
          · intro _
            rw [← hres, hlr]
          · intro hx
            rcases hx with hx | hx <;> rw [hm] at hx
            · exact absurd hx (by decide)
            · exact absurd hx (by decide)
          · intro r hr
            simp [execSlot, hr]
          · intro r hr
            simp [execSlot, hr]

theorem claim1_witness :
    parseCommand [lit "serve", lit "x"] c1Root { mode := some RunMode.all } (7 : Nat)
        = .ok (c1Res, c1Root)
    ∧ c1Res.help = false
    ∧ dispatchConclusion 7 c1Root { mode := some RunMode.all } c1Res c1Root :=
  ⟨rfl, rfl,
    claim1_dispatch_modes 7 [lit "serve", lit "x"] c1Root
      { mode := some RunMode.all } c1Res c1Root rfl rfl⟩

theorem reset_reset (f : Flag) : (Flag.reset f).reset = Flag.reset f := rfl

theorem resetFlags_resetFlags (fs : List Flag) :
    resetFlags (resetFlags fs) = resetFlags fs := by
  unfold resetFlags
  rw [List.map_map]
  exact List.map_congr_left (fun a _ => rfl)

theorem resetTop_withFlags (cmd : Cmd) (fs2 : List Flag)
    (h : resetFlags fs2 = resetFlags cmd.flags) :
    (cmd.withFlags fs2).resetTop = cmd.resetTop := by
  unfold Cmd.resetTop
  rw [withFlags_flags, withFlags_withFlags, h]

theorem resetTop_values (c : Cmd) (f : Flag) (hf : f ∈ c.resetTop.flags) :
    f.value_ = none := by
  have hfl : c.resetTop.flags = resetFlags c.flags := withFlags_flags _ _
  rw [hfl] at hf
  unfold resetFlags at hf
  obtain ⟨g, -, hg⟩ := List.mem_map.mp hf
  rw [← hg]
  rfl

theorem WFN_nodup {c : Cmd} (h : WFN c) : (c.children.map Cmd.name).Nodup := by
  cases h with
  | mk n fs r cs hnd hch => exact hnd

theorem WFN_child {c : Cmd} (h : WFN c) : ∀ k ∈ c.children, WFN k := by
  cases h with
  | mk n fs r cs hnd hch => exact hch

theorem WFN_of_children_eq {c c' : Cmd} (he : c'.children = c.children) (h : WFN c) :
    WFN c' := by
  cases c' with
  | mk n fs r cs =>
    cases h with
    | mk n2 fs2 r2 cs2 hnd hch =>
      have hcs : cs = cs2 := he
      subst hcs
      exact WFN.mk n fs r cs hnd hch

theorem WFN_withFlags {c : Cmd} (fs : List Flag) (h : WFN c) : WFN (c.withFlags fs) :=
  WFN_of_children_eq (withFlags_children c fs) h

theorem WFN_resetTop {c : Cmd} (h : WFN c) : WFN c.resetTop :=
  WFN_withFlags _ h

theorem onlyPath_name {p : List Str} {o n : Cmd} (h : OnlyPathChanged p o n) :
    n.name = o.name := by
  cases p with
  | nil => exact h.1
  | cons x xs => exact h.1

theorem tailNames_cons (r : Runner) (rs : List Runner) (cur : Cmd) :
    tailNames (r :: rs) cur = nextName rs cur :: tailNames rs cur := by
  cases rs <;> rfl

theorem tailNames_congr (rs : List Runner) {cur cur' : Cmd} (h : cur'.name = cur.name) :
    tailNames rs cur' = tailNames rs cur := by
  cases rs <;> simp [tailNames, h]

theorem tailNames_append (done : List Runner) (r : Runner) (cur : Cmd) :
    tailNames (done ++ [r]) cur = tailNames done r.cmd ++ [cur.name] := by
  cases done with
  | nil => rfl
  | cons d ds => simp [tailNames, List.map_append]

theorem rootOfChain_name (rs : List Runner) (cur : Cmd) :
    (rootOfChain rs cur).name = nextName rs cur := by
  cases rs <;> rfl

theorem rootOfChain_append (rs : List Runner) (r : Runner) (cur : Cmd) :
    rootOfChain (rs ++ [r]) cur = rootOfChain rs (r.cmd.replaceChildByName cur) := by
  induction rs with
  | nil => rfl
  | cons a rs ih =>
    show a.cmd.replaceChildByName (rootOfChain (rs ++ [r]) cur)
      = a.cmd.replaceChildByName (rootOfChain rs (r.cmd.replaceChildByName cur))
    rw [ih]

theorem liveChain_head (rs : List Runner) (leaf : Runner) :
    ∃ hd tl, liveChain rs leaf = hd :: tl ∧ hd.cmd = rootOfChain rs leaf.cmd := by
  induction rs with
  | nil => exact ⟨leaf, [], rfl, rfl⟩
  | cons r rs ih =>
    obtain ⟨hd, tl, hlc, hcmd⟩ := ih
    refine ⟨⟨r.cmd.replaceChildByName hd.cmd, r.args⟩, hd :: tl, ?_, ?_⟩
    · simp only [liveChain, hlc]
    · show r.cmd.replaceChildByName hd.cmd = rootOfChain (r :: rs) leaf.cmd
      rw [hcmd]
      rfl

theorem finalRoot_rootOfChain (st : PState) :
    st.finalRoot = rootOfChain st.done st.cmd := by
  obtain ⟨hd, tl, hlc, hcmd⟩ := liveChain_head st.done ⟨st.cmd, st.strs⟩
  unfold PState.finalRoot PState.liveRunners
  rw [hlc]
  exact hcmd

theorem replace_forall₂_step (x : Str) (xs xs' : List Str) (X X' : Cmd)
    (hXn : X.name = x) (hX'n : X'.name = x)
    (hstep : ∀ o : Cmd, OnlyPathChanged xs o X → OnlyPathChanged xs' o X') :
    ∀ (ch L : List Cmd),
      List.Forall₂ (fun k k' => (k.name = x → OnlyPathChanged xs k k') ∧ (k.name ≠ x → k' = k))
        L (ch.map (fun k => if k.name == X.name then X else k)) →
      List.Forall₂ (fun k k' => (k.name = x → OnlyPathChanged xs' k k') ∧ (k.name ≠ x → k' = k))
        L (ch.map (fun k => if k.name == X'.name then X' else k)) := by
  intro ch
  induction ch with
  | nil =>
    intro L h
    rw [List.map_nil] at h
    cases h
    exact List.Forall₂.nil
  | cons c ch ih =>
    intro L h
    rw [List.map_cons] at h
    cases h with
    | @cons a b l₁ l₂ hrel htail =>
      rw [List.map_cons]
      refine List.Forall₂.cons ?_ (ih _ htail)
      have hrel2 : (a.name = x → OnlyPathChanged xs a (if (c.name == X.name) = true then X else c))
          ∧ (a.name ≠ x → (if (c.name == X.name) = true then X else c) = a) := hrel
      show (a.name = x → OnlyPathChanged xs' a (if (c.name == X'.name) = true then X' else c))
          ∧ (a.name ≠ x → (if (c.name == X'.name) = true then X' else c) = a)
      by_cases hc : c.name = x
      · have hb : (c.name == X.name) = true := beq_iff_eq.mpr (hc.trans hXn.symm)
        have hb' : (c.name == X'.name) = true := beq_iff_eq.mpr (hc.trans hX'n.symm)
        rw [if_pos hb] at hrel2
        rw [if_pos hb']
        refine ⟨fun ho => hstep a (hrel2.1 ho), fun ho => ?_⟩
        exact absurd (by rw [← hrel2.2 ho]; exact hXn) ho
      · have hb : ¬((c.name == X.name) = true) :=
          fun hcontra => hc ((beq_iff_eq.mp hcontra).trans hXn)
        have hb' : ¬((c.name == X'.name) = true) :=
          fun hcontra => hc ((beq_iff_eq.mp hcontra).trans hX'n)
        rw [if_neg hb] at hrel2
        rw [if_neg hb']
        refine ⟨fun ho => ?_, hrel2.2⟩
        exact absurd ((onlyPath_name (hrel2.1 ho)).trans ho) hc

theorem onlyPath_leafCongr :
    ∀ (done : List Runner) (O cur cur' : Cmd),
      cur'.name = cur.name → cur'.hasRun = cur.hasRun → cur'.children = cur.children →
      OnlyPathChanged (tailNames done cur) O (rootOfChain done cur) →
      OnlyPathChanged (tailNames done cur') O (rootOfChain done cur') := by
  intro done
  induction done with
  | nil =>
    intro O cur cur' hn hr hc h
    obtain ⟨h1, h2, h3⟩ := h
    exact ⟨hn.trans h1, hr.trans h2, hc.trans h3⟩
  | cons r rs ih =>
    intro O cur cur' hn hr hc h
    rw [tailNames_cons] at h
    rw [tailNames_cons, nextName_congr rs cur' cur hn, tailNames_congr rs hn]
    obtain ⟨h1, h2, h3⟩ := h
    refine ⟨h1, h2, ?_⟩
    simp only [rootOfChain] at h3 ⊢
    rw [replaceChildByName_children] at h3 ⊢
    exact replace_forall₂_step (nextName rs cur) (tailNames rs cur) (tailNames rs cur)
      (rootOfChain rs cur) (rootOfChain rs cur') (rootOfChain_name rs cur)
      ((rootOfChain_name rs cur').trans (nextName_congr rs cur' cur hn))
      (fun o h5 => by
        rw [← tailNames_congr rs hn]
        exact ih o cur cur' hn hr hc h5)
      r.cmd.children O.children h3

theorem onlyPath_descend :
    ∀ (done : List Runner) (O cur found : Cmd),
      found ∈ cur.children →
      (cur.children.map Cmd.name).Nodup →
      OnlyPathChanged (tailNames done cur) O (rootOfChain done cur) →
      OnlyPathChanged (tailNames done cur ++ [found.name]) O
        (rootOfChain done (cur.replaceChildByName found.resetTop)) := by
  intro done
  induction done with
  | nil =>
    intro O cur found hmem hnd h
    obtain ⟨h1, h2, h3⟩ := h
    simp only [rootOfChain] at h3
    refine ⟨h1, h2, ?_⟩
    show List.Forall₂ _ O.children ((cur.replaceChildByName found.resetTop).children)
    rw [replaceChildByName_children, ← h3, List.forall₂_map_right_iff, List.forall₂_same]
    intro o ho
    show (o.name = found.name →
          OnlyPathChanged [] o (if (o.name == found.resetTop.name) = true then found.resetTop else o))
        ∧ (o.name ≠ found.name →
          (if (o.name == found.resetTop.name) = true then found.resetTop else o) = o)
    by_cases hon : o.name = found.name
    · have ho2 : o = found := List.inj_on_of_nodup_map hnd ho hmem hon
      have hb : (o.name == found.resetTop.name) = true := by
        rw [resetTop_name]
        exact beq_iff_eq.mpr hon
      rw [if_pos hb]
      refine ⟨fun _ => ?_, fun hne => absurd hon hne⟩
      rw [ho2]
      exact ⟨resetTop_name found, resetTop_hasRun found, resetTop_children found⟩
    · have hb : ¬((o.name == found.resetTop.name) = true) := by
        rw [resetTop_name]
        exact fun hcontra => hon (beq_iff_eq.mp hcontra)
      rw [if_neg hb]
      exact ⟨fun hcontra => absurd hcontra hon, fun _ => rfl⟩
  | cons r rs ih =>
    intro O cur found hmem hnd h
    rw [tailNames_cons] at h
    rw [tailNames_cons, List.cons_append]
    obtain ⟨h1, h2, h3⟩ := h
    refine ⟨h1, h2, ?_⟩
    simp only [rootOfChain] at h3 ⊢
    rw [replaceChildByName_children] at h3 ⊢
    exact replace_forall₂_step (nextName rs cur) (tailNames rs cur)
      (tailNames rs cur ++ [found.name])
      (rootOfChain rs cur) (rootOfChain rs (cur.replaceChildByName found.resetTop))
      (rootOfChain_name rs cur)
      ((rootOfChain_name rs (cur.replaceChildByName found.resetTop)).trans
        (nextName_congr rs (cur.replaceChildByName found.resetTop) cur rfl))
      (fun o h5 => ih o cur found hmem hnd h5)
      r.cmd.children O.children h3

theorem fallthroughTok_pathInv (auc : Bool) (lev : Option Int) (arg : Str) (st st' : PState)
    (O : Cmd) (h : fallthroughTok auc lev arg st = .ok st') (hwf : WFN st.cmd)
    (hop : OnlyPathChanged (tailNames st.done st.cmd) O (rootOfChain st.done st.cmd)) :
    WFN st'.cmd
    ∧ OnlyPathChanged (tailNames st'.done st'.cmd) O (rootOfChain st'.done st'.cmd) := by
  unfold fallthroughTok at h
  split at h
  · rcases hc : st.cmd.child arg with _ | found
    · rw [hc] at h
      dsimp only at h
      split at h
      · simp at h
      · simp only [Except.ok.injEq] at h
        subst h
        exact ⟨hwf, hop⟩
    · rw [hc] at h
      dsimp only at h
      simp only [Except.ok.injEq] at h
      subst h
      have hmem2 : found ∈ st.cmd.children :=
        List.mem_of_find?_eq_some (by simpa [Cmd.child] using hc)
      constructor
      · exact WFN_resetTop (WFN_child hwf found hmem2)
      · show OnlyPathChanged
            (tailNames (st.done ++ [⟨st.cmd, st.strs⟩]) found.resetTop) O
            (rootOfChain (st.done ++ [⟨st.cmd, st.strs⟩]) found.resetTop)
        rw [tailNames_append, rootOfChain_append, resetTop_name]
        exact onlyPath_descend st.done O st.cmd found hmem2 (WFN_nodup hwf) hop
  · simp only [Except.ok.injEq] at h
    subst h
    exact ⟨hwf, hop⟩

theorem stepTok_pathInv (auf auc : Bool) (lev : Option Int) (arg : Str) (st st' : PState)
    (O : Cmd) (h : stepTok auf auc lev arg st = .ok st') (hwf : WFN st.cmd)
    (hop : OnlyPathChanged (tailNames st.done st.cmd) O (rootOfChain st.done st.cmd)) :
    WFN st'.cmd
    ∧ OnlyPathChanged (tailNames st'.done st'.cmd) O (rootOfChain st'.done st'.cmd) := by
  have base : ∀ s₁ : PState, s₁.done = st.done → s₁.cmd.name = st.cmd.name →
      s₁.cmd.children = st.cmd.children → s₁.cmd.hasRun = st.cmd.hasRun → st' = s₁ →
      WFN st'.cmd
      ∧ OnlyPathChanged (tailNames st'.done st'.cmd) O (rootOfChain st'.done st'.cmd) := by
    intro s₁ hd hn hc2 hr2 he
    subst he
    constructor
    · exact WFN_of_children_eq hc2 hwf
    · rw [hd]
      exact onlyPath_leafCongr st.done O st.cmd st'.cmd hn hr2 hc2 hop
  simp only [stepTok] at h
  split at h
  next ff hpend =>
    split at h
    next e heq => simp at h
    next st1 heq =>
      simp only [Except.ok.injEq] at h
      obtain ⟨h1, _, _, _, h5, h6, h7⟩ := applyFF_ok st ff arg st1 heq
      refine base _ ?_ ?_ ?_ ?_ h.symm
      · exact h1
      · exact h5
      · exact h6
      · exact h7
  next hpend =>
    split at h
    · simp only [Except.ok.injEq] at h
      refine base _ ?_ ?_ ?_ ?_ h.symm <;> rfl
    · split at h
      · split at h
        next ff hff =>
          split at h
          next v heq2 =>
            split at h
            next e happ => simp at h
            next st1 happ =>
              simp only [Except.ok.injEq] at h
              obtain ⟨h1, _, _, _, h5, h6, h7⟩ := applyFF_ok st ff v st1 happ
              refine base _ ?_ ?_ ?_ ?_ h.symm
              · exact h1
              · exact h5
              · exact h6
              · exact h7
          next hne =>
            split at h
            · split at h
              next e happ => simp at h
              next st1 happ =>
                simp only [Except.ok.injEq] at h
                obtain ⟨h1, _, _, _, h5, h6, h7⟩ := applyFF_ok st ff (lit "1") st1 happ
                refine base _ ?_ ?_ ?_ ?_ h.symm
                · exact h1
                · exact h5
                · exact h6
                · exact h7
            · simp only [Except.ok.injEq] at h
              refine base _ ?_ ?_ ?_ ?_ h.symm <;> rfl
        next hff =>
          split at h
          · simp at h
          · exact fallthroughTok_pathInv auc lev arg _ st' O h hwf hop
      · split at h
        · split at h
          next ff hff =>
            obtain ⟨h1, h2, h5, h6, h7⟩ := chain_ok arg _ ff _ _ st' h
            constructor
            · exact WFN_of_children_eq h6 hwf
            · rw [h1]
              exact onlyPath_leafCongr st.done O st.cmd st'.cmd h5 h7 h6 hop
          next hff =>
            split at h
            · simp at h
            · exact fallthroughTok_pathInv auc lev arg _ st' O h hwf hop
        · exact fallthroughTok_pathInv auc lev arg _ st' O h hwf hop

theorem loop_pathInv (auf auc : Bool) (lev : Option Int) (O : Cmd) :
    ∀ (args : List Str) (st : PState) (out : LoopOut),
      loop auf auc lev args st = .ok out →
      WFN st.cmd →
      OnlyPathChanged (tailNames st.done st.cmd) O (rootOfChain st.done st.cmd) →
      ∀ st', (out = .helpOut st' ∨ out = .finished st') →
        WFN st'.cmd
        ∧ OnlyPathChanged (tailNames st'.done st'.cmd) O (rootOfChain st'.done st'.cmd) := by
  intro args
  induction args with
  | nil =>
    intro st out h hwf hop st' hout
    simp only [loop, endCheck] at h
    split at h
    · simp only [Except.ok.injEq] at h
      subst h
      rcases hout with he | he
      · cases he
        exact ⟨hwf, hop⟩
      · cases he
    · split at h
      · simp at h
      · simp only [Except.ok.injEq] at h
        subst h
        rcases hout with he | he
        · cases he
        · cases he
          exact ⟨hwf, hop⟩
  | cons arg rest ih =>
    intro st out h hwf hop st' hout
    simp only [loop] at h
    split at h
    · simp only [Except.ok.injEq] at h
      subst h
      rcases hout with he | he
      · cases he
        exact ⟨hwf, hop⟩
      · cases he
    · split at h
      next e hs => simp at h
      next st1 hs =>
        obtain ⟨hwf1, hop1⟩ := stepTok_pathInv auf auc lev arg st st1 O hs hwf hop
        exact ih st1 out h hwf1 hop1 st' hout

theorem fallthroughTok_descend (auc : Bool) (lev : Option Int) (arg : Str) (st st' : PState)
    (h : fallthroughTok auc lev arg st = .ok st') :
    (st'.done = st.done ∧ st'.cmd = st.cmd)
    ∨ ∃ found, st.cmd.child arg = some found ∧ st'.cmd = found.resetTop
        ∧ st'.done = st.done ++ [⟨st.cmd, st.strs⟩] := by
  unfold fallthroughTok at h
  split at h
  · rcases hc : st.cmd.child arg with _ | found
    · rw [hc] at h
      dsimp only at h
      split at h
      · simp at h
      · simp only [Except.ok.injEq] at h
        subst h
        exact Or.inl ⟨rfl, rfl⟩
    · rw [hc] at h
      dsimp only at h
      simp only [Except.ok.injEq] at h
      subst h
      exact Or.inr ⟨found, rfl, rfl, rfl⟩
  · simp only [Except.ok.injEq] at h
    subst h
    exact Or.inl ⟨rfl, rfl⟩

/-- The only step that extends the matched path installs the matched child
reset: `found.flags.reset()` happens at the moment of the match. -/
theorem stepTok_descend (auf auc : Bool) (lev : Option Int) (arg : Str) (st st' : PState)
    (h : stepTok auf auc lev arg st = .ok st') :
    st'.done = st.done
    ∨ ∃ found, st.cmd.child arg = some found ∧ st'.cmd = found.resetTop
        ∧ st'.done = st.done ++ [⟨st.cmd, st.strs⟩] := by
  have fall : ∀ s₁ : PState, s₁.done = st.done → s₁.cmd = st.cmd → s₁.strs = st.strs →
      fallthroughTok auc lev arg s₁ = .ok st' →
      st'.done = st.done
      ∨ ∃ found, st.cmd.child arg = some found ∧ st'.cmd = found.resetTop
          ∧ st'.done = st.done ++ [⟨st.cmd, st.strs⟩] := by
    intro s₁ hd hc hs hft
    rcases fallthroughTok_descend auc lev arg s₁ st' hft with ⟨hd', _⟩ | ⟨found, hf1, hf2, hf3⟩
    · exact Or.inl (hd'.trans hd)
    · refine Or.inr ⟨found, ?_, hf2, ?_⟩
      · rw [← hc]
        exact hf1
      · rw [hf3, hd, hc, hs]
  simp only [stepTok] at h
  split at h
  next ff hpend =>
    split at h
    next e heq => simp at h
    next st1 heq =>
      simp only [Except.ok.injEq] at h
      obtain ⟨h1, _, _, _, _, _, _⟩ := applyFF_ok st ff arg st1 heq
      rw [← h]
      exact Or.inl h1
  next hpend =>
    split at h
    · simp only [Except.ok.injEq] at h
      rw [← h]
      exact Or.inl rfl
    · split at h
      · split at h
        next ff hff =>
          split at h
          next v heq2 =>
            split at h
            next e happ => simp at h
            next st1 happ =>
              simp only [Except.ok.injEq] at h
              obtain ⟨h1, _, _, _, _, _, _⟩ := applyFF_ok st ff v st1 happ
              rw [← h]
              exact Or.inl h1
          next hne =>
            split at h
            · split at h
              next e happ => simp at h
              next st1 happ =>
                simp only [Except.ok.injEq] at h
                obtain ⟨h1, _, _, _, _, _, _⟩ := applyFF_ok st ff (lit "1") st1 happ
                rw [← h]
                exact Or.inl h1
            · simp only [Except.ok.injEq] at h
              rw [← h]
              exact Or.inl rfl
        next hff =>
          split at h
          · simp at h
          · refine fall _ ?_ ?_ ?_ h <;> rfl
      · split at h
        · split at h
          next ff hff =>
            obtain ⟨h1, _, _, _, _⟩ := chain_ok arg _ ff _ _ st' h
            exact Or.inl h1
          next hff =>
            split at h
            · simp at h
            · refine fall _ ?_ ?_ ?_ h <;> rfl
        · refine fall _ ?_ ?_ ?_ h <;> rfl

/-- C5: every parse resets the root's flag values before the token loop —
the result is invariant under any current values pre-set at the root — and a
reset registry holds no current values; the only loop step that extends the
matched path installs the matched child reset (`found.flags.reset()` at the
moment of the match), so every path command starts its parse with clean
flags and no value from a prior parse leaks into it; and the final tree
differs from the original only along the matched path and there only in the
flag registries: subtrees of commands never reached are the unchanged
originals (in particular they are not reset). -/
theorem claim5_reset_no_leakage :
    (∀ (U : Type) (u : U) (args : List Str) (cmd : Cmd) (opts : ParseCommandOptions)
        (fs2 : List Flag), resetFlags fs2 = resetFlags cmd.flags →
        parseCommand args (cmd.withFlags fs2) opts u = parseCommand args cmd opts u)
    ∧ (∀ (c : Cmd) (f : Flag), f ∈ c.resetTop.flags → f.value_ = none)
    ∧ (∀ (auf auc : Bool) (lev : Option Int) (arg : Str) (st st' : PState),
        stepTok auf auc lev arg st = .ok st' →
        st'.done = st.done
        ∨ ∃ found, st.cmd.child arg = some found ∧ st'.cmd = found.resetTop
            ∧ st'.done = st.done ++ [⟨st.cmd, st.strs⟩])
    ∧ (∀ (U : Type) (u : U) (args : List Str) (root : Cmd) (opts : ParseCommandOptions)
        (res : ParseCommandResult U) (rootFin : Cmd),
        WFN root →
        parseCommand args root opts u = .ok (res, rootFin) →
        ∃ p : List Str, OnlyPathChanged p root rootFin) := by
  refine ⟨?_, resetTop_values, stepTok_descend, ?_⟩
  · intro U u args cmd opts fs2 hfs
    simp only [parseCommand]
    rw [resetTop_withFlags cmd fs2 hfs]
  · intro U u args root opts res rootFin hwf h
    simp only [parseCommand] at h
    rcases hl : loop opts.allowUnknowFlag opts.allowUnknowCommand opts.levenshteinDistance args
        ⟨root.resetTop, [], [], none, [], none⟩ with e | out
    · rw [hl] at h
      simp at h
    · have hini : OnlyPathChanged (tailNames ([] : List Runner) root.resetTop) root
          (rootOfChain [] root.resetTop) :=
        ⟨resetTop_name root, resetTop_hasRun root, resetTop_children root⟩
      rcases out with st | st
      · rw [hl] at h
        dsimp only at h
        simp only [Except.ok.injEq, Prod.mk.injEq] at h
        obtain ⟨hwf2, hop2⟩ := loop_pathInv opts.allowUnknowFlag opts.allowUnknowCommand
          opts.levenshteinDistance root args ⟨root.resetTop, [], [], none, [], none⟩
          (.helpOut st) hl (WFN_resetTop hwf) hini st (Or.inl rfl)
        refine ⟨tailNames st.done st.cmd, ?_⟩
        rw [← h.2, finalRoot_rootOfChain]
        exact hop2
      · rw [hl] at h
        dsimp only at h
        obtain ⟨hwf2, hop2⟩ := loop_pathInv opts.allowUnknowFlag opts.allowUnknowCommand
          opts.levenshteinDistance root args ⟨root.resetTop, [], [], none, [], none⟩
          (.finished st) hl (WFN_resetTop hwf) hini st (Or.inr rfl)
        have hfe : st.finalRoot = rootFin := by
          rcases hm : opts.mode with _ | m
          · rw [hm] at h
            dsimp only at h
            simp only [Except.ok.injEq, Prod.mk.injEq] at h
            exact h.2
          · rcases m with _ | _ | _
            · rw [hm] at h
              dsimp only at h
              simp only [Except.ok.injEq, Prod.mk.injEq] at h
              exact h.2
            · rw [hm] at h
              dsimp only at h
              simp only [Except.ok.injEq, Prod.mk.injEq] at h
              exact h.2
            · rw [hm] at h
              dsimp only at h
              simp only [Except.ok.injEq, Prod.mk.injEq] at h
              exact h.2
        refine ⟨tailNames st.done st.cmd, ?_⟩
        rw [← hfe, finalRoot_rootOfChain]
        exact hop2

theorem c5Root_WFN : WFN c5Root := by
  show WFN (Cmd.mk (lit "root") [c5Flag] true [c5Serve, c5Other])
  refine WFN.mk _ _ _ _ (by decide) ?_
  intro k hk
  simp only [List.mem_cons, List.not_mem_nil, or_false] at hk
  rcases hk with rfl | rfl
  · show WFN (Cmd.mk (lit "serve") [c5PortDirty] true [])
    exact WFN.mk _ _ _ _ (by decide) (fun k hk => absurd hk (List.not_mem_nil k))
  · show WFN (Cmd.mk (lit "other") [c5OtherFlag] false [])
    exact WFN.mk _ _ _ _ (by decide) (fun k hk => absurd hk (List.not_mem_nil k))

theorem claim5_witness :
    parseCommand [lit "serve"] (c5Root.withFlags [{ c5Flag with value_ := none }]) {} (0 : Nat)
      = parseCommand [lit "serve"] c5Root {} 0
    ∧ (Flag.reset c5Flag).value_ = none
    ∧ (c5St1.done = c5St0.done
        ∨ ∃ found, c5St0.cmd.child (lit "serve") = some found ∧ c5St1.cmd = found.resetTop
            ∧ c5St1.done = c5St0.done ++ [⟨c5St0.cmd, c5St0.strs⟩])
    ∧ ∃ p : List Str, OnlyPathChanged p c5Root c5Fin := by
  obtain ⟨h1, h2, h3, h4⟩ := claim5_reset_no_leakage
  exact ⟨h1 Nat 0 [lit "serve"] c5Root {} [{ c5Flag with value_ := none }] rfl,
    h2 c5Root (Flag.reset c5Flag) (List.mem_cons_self _ _),
    h3 false false none (lit "serve") c5St0 c5St1 rfl,
    h4 Nat 0 [lit "serve"] c5Root {} c5Res c5Fin c5Root_WFN rfl⟩

end CmdLine
